import Mathlib

/-!
Verification development for the RummyVision rummy engine
(`src/server/rummy_engine.py`).

This file gives a shallow embedding of the engine's pure core:

* the card codec (`parse_card`, `build_deck`, the `Rank-Suit` rendering),
* the greedy meld finder (`find_melds`, phases 1 and 2),
* deadwood scoring (`calculate_deadwood`),
* the Monte Carlo simulation loop (`simulate_game`), and
* the discard advisor endpoint body (`suggest_discard`),

and proves the specification claims about them.

Modelling conventions:

* Python `float` values are modelled as `ℚ`.  All deadwood values are small
  integers, so the sums the engine forms are exact in both models; the final
  averages are rational.  `round(x, 2)` is modelled as rational rounding of
  `100 * x` (the claims below do not depend on its tie behaviour).
* Python's module-global `random.shuffle` has no Lean counterpart; the
  embedding threads an explicit family of shuffle functions
  (`ℕ → List String → List String`, one per trial) through `simulate_game`,
  and one family per candidate discard through `suggest_discard`.  This is
  exactly the explicit-random-source refactoring the spec demands; the gap
  between it and the source's implicit global state is recorded with claim C1.
* Python's stable `list.sort`/`sorted` is modelled by `List.insertionSort`
  with the same (total, reflexive-on-ties) comparison; a stable sort's output
  is uniquely determined by the comparison, so this is faithful.
* Python `dict` iteration order is insertion order; the embeddings of
  `rank_groups` / `suit_groups` iterate keys in order of first occurrence
  (`firstOccur`) and recover each bucket by filtering, which reproduces the
  insertion-order semantics of the source's `defaultdict(list)` loops.
* Python `set` values are modelled as `Finset ℕ` (for index sets) or by
  membership tests on lists (for string sets); only membership is ever used.
* The `str.strip()` calls are modelled with Unicode-whitespace trimming on
  the character list; the canonical tokens contain no whitespace.
-/

/-- `SUITS` list from the source (fixed declared suit order). -/
def SUITS : List String := ["hearts", "diamonds", "clubs", "spades"]

/-- `RANKS` list from the source (fixed declared rank order, `A` low). -/
def RANKS : List String := ["A", "2", "3", "4", "5", "6", "7", "8", "9", "10", "J", "Q", "K"]

/-- A parsed card, exactly as `parse_card` returns it: `(rank_val, suit)`. -/
abbrev Card := ℕ × String

/-- `RANK_VALUES = {r: i+1 for i, r in enumerate(RANKS)}`. -/
def RANK_VALUES : List (String × ℕ) := RANKS.enum.map (fun p => (p.2, p.1 + 1))

/-- `m.get(k, d)` on a Python dict represented as an association list. -/
def lookupD (m : List (String × ℕ)) (k : String) (d : ℕ) : ℕ :=
  match m.find? (fun p => p.1 == k) with
  | some p => p.2
  | none => d

/-- Overwrite the value of an existing key, as Python `m[k] = v` does for
keys already present (all four uses in the source touch existing keys). -/
def setKey (m : List (String × ℕ)) (k : String) (v : ℕ) : List (String × ℕ) :=
  m.map (fun p => if p.1 == k then (k, v) else p)

/-- `DEADWOOD_VALUES`: the comprehension `{r: min(i+1, 10) ...}` followed by
the four explicit assignments for `J`, `Q`, `K`, `A` from the source. -/
def DEADWOOD_VALUES : List (String × ℕ) :=
  setKey (setKey (setKey (setKey
    (RANKS.enum.map (fun p => (p.2, min (p.1 + 1) 10))) "J" 10) "Q" 10) "K" 10) "A" 1

/-- Python `str.strip()` on a character list. -/
def trimChars (cs : List Char) : List Char :=
  ((cs.dropWhile Char.isWhitespace).reverse.dropWhile Char.isWhitespace).reverse

/-- Python `str.strip()`. -/
def pyStrip (s : String) : String := String.mk (trimChars s.toList)

/-- Helper for `str.split('-')`: split a character list at every dash. -/
def splitDashAux : List Char → List Char → List (List Char)
  | [], cur => [cur.reverse]
  | c :: rest, cur =>
    if c == '-' then cur.reverse :: splitDashAux rest [] else splitDashAux rest (c :: cur)

/-- Python `card_str.split('-')`. -/
def pySplitDash (s : String) : List String := (splitDashAux s.toList []).map String.mk

/-- `parse_card`: split on `-` into exactly two parts, strip both, look the
rank up in `RANK_VALUES` (default 0) and require a canonical suit. -/
def parse_card (card_str : String) : Option Card :=
  match pySplitDash card_str with
  | [p1, p2] =>
    let rank := pyStrip p1
    let suit := pyStrip p2
    let rank_val := lookupD RANK_VALUES rank 0
    if rank_val == 0 || !(SUITS.contains suit) then none
    else some (rank_val, suit)
  | _ => none

/-- `build_deck`: outer loop over `SUITS`, inner loop over `RANKS`,
appending `f"{r}-{s}"`. -/
def build_deck : List String := SUITS.flatMap (fun s => RANKS.map (fun r => r ++ "-" ++ s))

/-- The `Rank-Suit` rendering used by `build_deck` (and by the engine when it
turns a rank value back into a rank string via `RANKS[rank - 1]`). -/
def format_card (c : Card) : String := (RANKS.getD (c.1 - 1) "") ++ "-" ++ c.2

/-! ### MeldFinder (`find_melds`) -/

/-- Lexicographic code-point comparison of character lists, the order Python
uses on strings (and the order `String` carries in Lean, restated here in a
directly computable form). -/
def strLeb : List Char → List Char → Bool
  | [], _ => true
  | _ :: _, [] => false
  | a :: as, b :: bs =>
    if a.toNat < b.toNat then true
    else if b.toNat < a.toNat then false
    else strLeb as bs

/-- Python `s1 <= s2` on strings. -/
def pyStrLe (a b : String) : Prop := strLeb a.toList b.toList = true

instance : DecidableRel pyStrLe := fun a b => by
  unfold pyStrLe; infer_instance

/-- The sort key of `sorted_hand = sorted(enumerate(parsed_hand),
key=lambda x: (x[1][0], x[1][1]))`: compare the card's `(rank, suit)` tuple
lexicographically, with Python string order on the suit. -/
def sortKeyRel (a b : ℕ × Card) : Prop :=
  a.2.1 < b.2.1 ∨ (a.2.1 = b.2.1 ∧ pyStrLe a.2.2 b.2.2)

instance : DecidableRel sortKeyRel := fun a b => by
  unfold sortKeyRel; infer_instance

/-- `sorted_hand = sorted(enumerate(parsed_hand), key=...)` (Python's sort is
stable; a stable sort is uniquely determined by its comparison, so the stable
`insertionSort` is a faithful model). -/
def sorted_hand (parsed_hand : List Card) : List (ℕ × Card) :=
  List.insertionSort sortKeyRel parsed_hand.enum

/-- Keys of a Python dict built by insertion, in insertion order:
the elements of `l` keeping only the first occurrence of each. -/
def firstOccurAux [DecidableEq α] (seen : List α) : List α → List α
  | [] => []
  | a :: l => if a ∈ seen then firstOccurAux seen l else a :: firstOccurAux (a :: seen) l

/-- First occurrences of each element of `l`, in order. -/
def firstOccur [DecidableEq α] (l : List α) : List α := firstOccurAux [] l

/-- The keys of `rank_groups`, in insertion order (= first occurrence in
`sorted_hand`, hence ascending rank). -/
def rank_groups_order (sh : List (ℕ × Card)) : List ℕ :=
  firstOccur (sh.map (fun e => e.2.1))

/-- The bucket `rank_groups[r]`: the `(idx, suit)` pairs of the entries of
`sorted_hand` whose rank is `r`, in `sorted_hand` order. -/
def rank_group (sh : List (ℕ × Card)) (r : ℕ) : List (ℕ × String) :=
  (sh.filter (fun e => e.2.1 == r)).map (fun e => (e.1, e.2.2))

/-- The suit-deduplicating collection loop of phase 1: walk the rank group,
skip suits already used, stop as soon as 4 cards are collected. -/
def takeSetCards (r : ℕ) : List (ℕ × String) → List String → List (ℕ × Card) → List (ℕ × Card)
  | [], _, acc => acc
  | (idx, s) :: rest, used_suits, acc =>
    if s ∈ used_suits then takeSetCards r rest used_suits acc
    else
      let acc2 := acc ++ [(idx, (r, s))]
      if 4 ≤ acc2.length then acc2
      else takeSetCards r rest (s :: used_suits) acc2

/-- Phase 1 of `find_melds`, with the hand index of each meld card kept
(the source keeps the indices in `set_cards` and only projects them away
when appending to `melds`). -/
def setMeldsIndexed (parsed_hand : List Card) : List (List (ℕ × Card)) :=
  let sh := sorted_hand parsed_hand
  (rank_groups_order sh).filterMap (fun r =>
    let cards := rank_group sh r
    if 3 ≤ cards.length then
      if 3 ≤ (cards.map Prod.snd).toFinset.card then
        let set_cards := takeSetCards r cards [] []
        if 3 ≤ set_cards.length then some set_cards else none
      else none
    else none)

/-- All hand indices mentioned by a list of indexed melds, as the Python
`set` of `matched_indices` additions. -/
def meldIndices (L : List (List (ℕ × Card))) : Finset ℕ :=
  L.foldl (fun s m => m.foldl (fun s2 p => insert p.1 s2) s) ∅

/-- `matched_indices` as it stands after phase 1. -/
def matched1 (parsed_hand : List Card) : Finset ℕ :=
  meldIndices (setMeldsIndexed parsed_hand)

/-- The entries of `sorted_hand` still unmatched after phase 1 (the loop
`for idx, (rank, suit) in sorted_hand: if idx not in matched_indices`). -/
def availAfterSets (parsed_hand : List Card) : List (ℕ × Card) :=
  (sorted_hand parsed_hand).filter (fun e => decide (e.1 ∉ matched1 parsed_hand))

/-- The keys of `suit_groups`, in insertion order. -/
def suit_groups_order (parsed_hand : List Card) : List String :=
  firstOccur ((availAfterSets parsed_hand).map (fun e => e.2.2))

/-- The bucket `suit_groups[s]`: `(idx, rank)` pairs of the unmatched cards
of suit `s`, in `sorted_hand` order. -/
def suit_group (parsed_hand : List Card) (s : String) : List (ℕ × ℕ) :=
  ((availAfterSets parsed_hand).filter (fun e => e.2.2 == s)).map (fun e => (e.1, e.2.1))

/-- The comparison of `cards.sort(key=lambda x: x[1])`. -/
def rankOrdRel (a b : ℕ × ℕ) : Prop := a.2 ≤ b.2

instance : DecidableRel rankOrdRel := fun a b => by
  unfold rankOrdRel; infer_instance

/-- The consecutive-sequence scan of phase 2: `cur` is `current_seq` (kept in
order), `prev` is the previous element `cards[i-1]`; a sequence is flushed
when the next rank is not `prev.rank + 1`, and kept only if its length is at
least 3.  Mirrors the loop plus its final `if len(current_seq) >= 3` flush. -/
def scanAux (cur : List (ℕ × ℕ)) (prev : ℕ × ℕ) : List (ℕ × ℕ) → List (List (ℕ × ℕ))
  | [] => if 3 ≤ cur.length then [cur] else []
  | c :: rest =>
    if c.2 = prev.2 + 1 then scanAux (cur ++ [c]) c rest
    else (if 3 ≤ cur.length then [cur] else []) ++ scanAux [c] c rest

/-- `sequences` for one suit bucket: scan the rank-sorted cards for maximal
consecutive stretches, keeping those of length ≥ 3. -/
def scanSequences : List (ℕ × ℕ) → List (List (ℕ × ℕ))
  | [] => []
  | c :: rest => scanAux [c] c rest

/-- Phase 2 of `find_melds`, indices kept (`run_cards` in the source). -/
def phase2Melds (parsed_hand : List Card) : List (List (ℕ × Card)) :=
  (suit_groups_order parsed_hand).flatMap (fun s =>
    let cards0 := suit_group parsed_hand s
    if cards0.length < 3 then []
    else
      let cards := List.insertionSort rankOrdRel cards0
      (scanSequences cards).map (fun seq => seq.map (fun p => (p.1, (p.2, s)))))

/-- `find_melds`: returns `(matched_indices, melds)`, the melds with their
indices projected away exactly as `melds.append([card for _, card in ...])`
does. -/
def find_melds (parsed_hand : List Card) : Finset ℕ × List (List Card) :=
  if parsed_hand = [] then (∅, [])
  else
    let melds := setMeldsIndexed parsed_hand ++ phase2Melds parsed_hand
    (meldIndices melds, melds.map (fun m => m.map Prod.snd))

/-! ### DeadwoodEvaluator (`calculate_deadwood`) -/

/-- `calculate_deadwood`: parse (dropping unparseable tokens), find melds,
and sum the `DEADWOOD_VALUES` of the unmatched cards, starting from `0.0`.
`RANKS.getD (rank - 1) ""` models `RANKS[rank - 1]` (always in range for
cards produced by `parse_card`). -/
def calculate_deadwood (hand : List String) : ℚ :=
  let parsed_hand := hand.filterMap parse_card
  if parsed_hand = [] then 0
  else
    let matched_indices := (find_melds parsed_hand).1
    parsed_hand.enum.foldl
      (fun score e =>
        if e.1 ∉ matched_indices then
          score + (lookupD DEADWOOD_VALUES (RANKS.getD (e.2.1 - 1) "") 10 : ℚ)
        else score)
      0

/-! ### MonteCarloSimulator (`simulate_game`) -/

/-- Python `list.remove(x)`: delete the first occurrence of `x`. -/
def removeFirst : List String → String → List String
  | [], _ => []
  | c :: rest, x => if c == x then rest else c :: removeFirst rest x

/-- The inner discard-selection loop of a draw step: scan `current_hand`,
tracking `(best_after_draw, best_discard_card)`.  In the source these start
as `(float('inf'), None)` and are always updated together; `none` models
that initial state (any finite deadwood beats infinity, so the first card
always replaces it). -/
def bestDiscardScan (current_hand : List String) : Option (ℚ × String) :=
  current_hand.foldl
    (fun acc card_to_try =>
      let test_hand := current_hand.filter (fun c => !(c == card_to_try))
      let dw := calculate_deadwood test_hand
      match acc with
      | none => some (dw, card_to_try)
      | some (b, bc) => if dw < b then some (dw, card_to_try) else some (b, bc))
    none

/-- One draw step of a trial.  State: `(current_hand, best_deadwood,
improvements)`.  The drawn card is appended, the best single discard is
selected, and the result is committed only when it strictly improves on
`best_deadwood` and the chosen card is truthy (a non-empty string models
Python's `and best_discard_card` test); otherwise the drawn card is removed
again.  On a committed improvement over the initial deadwood the
`improvements` counter is incremented. -/
def drawStep (initial_deadwood : ℚ) (st : List String × ℚ × ℕ) (drawn : String) :
    List String × ℚ × ℕ :=
  let current_hand := st.1 ++ [drawn]
  match bestDiscardScan current_hand with
  | some (best_after_draw, best_discard_card) =>
    if best_after_draw < st.2.1 ∧ best_discard_card ≠ "" then
      (current_hand.filter (fun c => !(c == best_discard_card)), best_after_draw,
        if best_after_draw < initial_deadwood then st.2.2 + 1 else st.2.2)
    else (removeFirst current_hand drawn, st.2.1, st.2.2)
  | none => (removeFirst current_hand drawn, st.2.1, st.2.2)

/-- One Monte Carlo trial: fold the draw steps over the first
`min(max_draws, len(deck_copy))` cards of the shuffled deck, starting from
the original hand with `best_deadwood = initial_deadwood` and improvement
count 0.  Returns `(best_deadwood, improvements delta)`. -/
def runTrial (initial_deadwood : ℚ) (hand deck_copy : List String) (max_draws : ℕ) : ℚ × ℕ :=
  let st := (deck_copy.take (min max_draws deck_copy.length)).foldl
    (drawStep initial_deadwood) (hand, initial_deadwood, 0)
  (st.2.1, st.2.2)

/-- `simulate_game`.  The source's `random.shuffle(deck_copy)` mutates the
`random` module's global generator; the embedding instead takes the sequence
of per-trial shuffle outcomes as the explicit argument `shuffle` (trial
number ↦ permutation function).  Returns `(avg_deadwood, improvement_prob)`. -/
def simulate_game (hand unknown_deck : List String) (trials max_draws : ℕ)
    (shuffle : ℕ → List String → List String) : ℚ × ℚ :=
  if unknown_deck = [] then (calculate_deadwood hand, 0)
  else
    let initial_deadwood := calculate_deadwood hand
    let acc := (List.range trials).foldl
      (fun (acc : ℚ × ℕ) t =>
        let deck_copy := shuffle t unknown_deck
        let r := runTrial initial_deadwood hand deck_copy max_draws
        (acc.1 + r.1, acc.2 + r.2))
      (0, 0)
    (acc.1 / (trials : ℚ), (acc.2 : ℚ) / (trials : ℚ))

/-! ### ConfidenceClassifier and DiscardAdvisor -/

/-- `get_confidence_level` (the float thresholds 0.7, 0.4, … as rationals). -/
def get_confidence_level (prob : ℚ) (trials : ℕ) : String :=
  if 500 ≤ trials then
    if (7 : ℚ)/10 ≤ prob then "high" else if (4 : ℚ)/10 ≤ prob then "medium" else "low"
  else if 200 ≤ trials then
    if (3 : ℚ)/4 ≤ prob then "high" else if (45 : ℚ)/100 ≤ prob then "medium" else "low"
  else
    if (4 : ℚ)/5 ≤ prob then "high" else if (1 : ℚ)/2 ≤ prob then "medium" else "low"

/-- Python `round(x, 2)` on the rational model (round to integer hundredths;
no claim depends on the tie behaviour of the float version). -/
def round2 (q : ℚ) : ℚ := ((round (q * 100) : ℤ) : ℚ) / 100

/-- One entry of the advisory response (`DiscardSuggestion`). -/
structure DiscardSuggestion where
  card : String
  win_probability : ℚ
  expected_deadwood : ℚ
  confidence : String
deriving DecidableEq, Repr

/-- The advisory response (`SuggestResponse`). -/
structure SuggestResponse where
  suggestions : List DiscardSuggestion
  current_deadwood : ℚ
  message : Option String
deriving DecidableEq, Repr

/-- The client-input error taxonomy of the endpoint body
(each raised as an HTTP 400 in the source). -/
inductive EngineError where
  | invalidCardFormat (tokens : List String)
  | duplicateCard
  | deckExhausted
deriving DecidableEq, Repr

/-- The comparison of `results.sort(key=lambda x: (x.win_probability,
-x.expected_deadwood), reverse=True)`: descending lexicographic order on
`(win_probability, -expected_deadwood)`, ties keeping original order. -/
def suggRel (a b : DiscardSuggestion) : Prop :=
  b.win_probability < a.win_probability ∨
    (a.win_probability = b.win_probability ∧ a.expected_deadwood ≤ b.expected_deadwood)

instance : DecidableRel suggRel := fun a b => by
  unfold suggRel; infer_instance

/-- The body of the `/suggest` endpoint (`suggest_discard`), after FastAPI
has delivered the request.  Randomness is threaded as one shuffle family per
candidate discard (`shuffles : candidate index ↦ trial ↦ permutation`); the
`logger.warning` on invalid visible tokens is a side effect with no result
and is not modelled. -/
def suggest_discard (my_hand visible : List String) (trials max_draws : ℕ)
    (shuffles : ℕ → ℕ → List String → List String) : Except EngineError SuggestResponse :=
  let parsed_hand := my_hand.map parse_card
  let invalid_cards := ((my_hand.zip parsed_hand).filter (fun p => p.2 == none)).map Prod.fst
  if invalid_cards ≠ [] then .error (.invalidCardFormat invalid_cards)
  else if my_hand.length ≠ (firstOccur my_hand).length then .error .duplicateCard
  else
    let full_deck := build_deck
    let unknown_deck := full_deck.filter
      (fun c => !(my_hand.contains c) && !(visible.contains c))
    if unknown_deck.length = 0 then .error .deckExhausted
    else
      let current_deadwood := calculate_deadwood my_hand
      let results := my_hand.enum.map (fun e =>
        let card_to_discard := e.2
        let remaining_hand := my_hand.filter (fun c => !(c == card_to_discard))
        let sim := simulate_game remaining_hand unknown_deck trials max_draws (shuffles e.1)
        let normalized_prob :=
          if 0 < current_deadwood then
            sim.2 * (1 - min (sim.1 / (current_deadwood + 1)) 1)
          else sim.2
        { card := card_to_discard
          win_probability := min (max normalized_prob 0) 1
          expected_deadwood := round2 sim.1
          confidence := get_confidence_level normalized_prob trials : DiscardSuggestion })
      let sorted_results := List.insertionSort suggRel results
      let message :=
        match sorted_results with
        | [] => none
        | r :: _ =>
          if r.win_probability < (3 : ℚ)/10 then
            some "All discard options show low win probability. Consider your current hand carefully."
          else none
      .ok { suggestions := sorted_results
            current_deadwood := round2 current_deadwood
            message := message }

/-! ### Auxiliary definitions for the statements and proofs -/

/-- The per-rank deadwood value exactly as the spec words it, keyed on the
rank value: A(=1) is worth 1, ranks 2..9 their face value, 10/J/Q/K worth 10.
Claim C2 compares the engine's `DEADWOOD_VALUES` lookup against this. -/
def specDeadwoodValue (rank_val : ℕ) : ℕ :=
  if rank_val ≤ 9 then rank_val else 10

/-- The phase 2 scan without the length ≥ 3 filter: all maximal consecutive
stretches.  `scanAux` is this followed by the filter (proved below); the
unfiltered version exposes the partition structure of the scan. -/
def blocksAux (cur : List (ℕ × ℕ)) (prev : ℕ × ℕ) : List (ℕ × ℕ) → List (List (ℕ × ℕ))
  | [] => [cur]
  | c :: rest =>
    if c.2 = prev.2 + 1 then blocksAux (cur ++ [c]) c rest
    else cur :: blocksAux [c] c rest

/-- All maximal consecutive stretches of a rank-sorted suit bucket. -/
def chainBlocks : List (ℕ × ℕ) → List (List (ℕ × ℕ))
  | [] => []
  | c :: rest => blocksAux [c] c rest

/-- Rank of the first card of a scanner block (0 if empty). -/
def hdRank (b : List (ℕ × ℕ)) : ℕ := (b.head?.map Prod.snd).getD 0

/-- Rank of the last card of a scanner block (0 if empty). -/
def lsRank (b : List (ℕ × ℕ)) : ℕ := (b.getLast?.map Prod.snd).getD 0

/-- Rank of the first card of an indexed meld (0 if empty). -/
def meldHdRank (m : List (ℕ × Card)) : ℕ := (m.head?.map (fun p => p.2.1)).getD 0

/-- Rank of the last card of an indexed meld (0 if empty). -/
def meldLsRank (m : List (ℕ × Card)) : ℕ := (m.getLast?.map (fun p => p.2.1)).getD 0

/-- The value of `calculate_deadwood` as a natural number (the engine only
ever adds integer card values to `0.0`, so its float is this sum exactly). -/
def deadwoodNatSum (hand : List String) : ℕ :=
  let parsed_hand := hand.filterMap parse_card
  ((parsed_hand.enum.filter (fun e => decide (e.1 ∉ (find_melds parsed_hand).1))).map
      (fun e => lookupD DEADWOOD_VALUES (RANKS.getD (e.2.1 - 1) "") 10)).sum

/-! ## Theorems

First the card codec (claim C6), then deadwood scoring (claim C2). -/

/-- `strLeb` is total. -/
theorem strLeb_total : ∀ as bs : List Char, strLeb as bs = true ∨ strLeb bs as = true := by
  intro as
  induction as with
  | nil => intro bs; exact Or.inl rfl
  | cons a as ih =>
    intro bs
    cases bs with
    | nil => exact Or.inr rfl
    | cons b bs =>
      simp only [strLeb]
      rcases Nat.lt_trichotomy a.toNat b.toNat with h | h | h
      · left; rw [if_pos h]
      · rcases ih bs with h2 | h2
        · left; rw [if_neg (by omega), if_neg (by omega)]; exact h2
        · right; rw [if_neg (by omega), if_neg (by omega)]; exact h2
      · right; rw [if_pos h]

/-- `strLeb` is transitive. -/
theorem strLeb_trans : ∀ as bs cs : List Char,
    strLeb as bs = true → strLeb bs cs = true → strLeb as cs = true := by
  intro as
  induction as with
  | nil => intro bs cs _ _; rfl
  | cons a as ih =>
    intro bs cs hab hbc
    cases bs with
    | nil => exact absurd hab (by simp [strLeb])
    | cons b bs =>
      cases cs with
      | nil => exact absurd hbc (by simp [strLeb])
      | cons c cs =>
        simp only [strLeb] at hab hbc ⊢
        by_cases h1 : a.toNat < b.toNat <;> by_cases h2 : b.toNat < c.toNat
        · rw [if_pos (by omega)]
        · rw [if_neg h2] at hbc
          split at hbc
          · exact absurd hbc (by simp)
          · rw [if_pos (by omega)]
        · rw [if_neg h1] at hab
          split at hab
          · exact absurd hab (by simp)
          · rw [if_pos (by omega)]
        · rw [if_neg h1] at hab
          split at hab
          · exact absurd hab (by simp)
          · rw [if_neg h2] at hbc
            split at hbc
            · exact absurd hbc (by simp)
            · rename_i hba hcb
              rw [if_neg (by omega), if_neg (by omega)]
              exact ih bs cs hab hbc

/-- Mutually `≤` character lists are equal. -/
theorem strLeb_antisymm : ∀ as bs : List Char,
    strLeb as bs = true → strLeb bs as = true → as = bs := by
  intro as
  induction as with
  | nil =>
    intro bs _ hba
    cases bs with
    | nil => rfl
    | cons b bs => exact absurd hba (by simp [strLeb])
  | cons a as ih =>
    intro bs hab hba
    cases bs with
    | nil => exact absurd hab (by simp [strLeb])
    | cons b bs =>
      simp only [strLeb] at hab hba
      by_cases h1 : a.toNat < b.toNat
      · rw [if_neg (by omega), if_pos h1] at hba
        exact absurd hba (by simp)
      · rw [if_neg h1] at hab
        by_cases h2 : b.toNat < a.toNat
        · rw [if_pos h2] at hab
          exact absurd hab (by simp)
        · rw [if_neg h2] at hab
          rw [if_neg (by omega), if_neg (by omega)] at hba
          have hc : a = b := by
            have hn : a.toNat = b.toNat := by omega
            have : a.val = b.val := by
              unfold Char.toNat at hn
              exact UInt32.toNat.inj hn
            exact Char.ext this
          rw [hc, ih bs hab hba]

/-- `pyStrLe` is antisymmetric. -/
theorem pyStrLe_antisymm (a b : String) (hab : pyStrLe a b) (hba : pyStrLe b a) : a = b := by
  apply String.ext
  have := strLeb_antisymm a.toList b.toList hab hba
  simpa [String.toList] using this

instance : IsTotal (ℕ × Card) sortKeyRel where
  total a b := by
    unfold sortKeyRel
    rcases lt_trichotomy a.2.1 b.2.1 with h | h | h
    · exact Or.inl (Or.inl h)
    · rcases strLeb_total a.2.2.toList b.2.2.toList with h2 | h2
      · exact Or.inl (Or.inr ⟨h, h2⟩)
      · exact Or.inr (Or.inr ⟨h.symm, h2⟩)
    · exact Or.inr (Or.inl h)

instance : IsTrans (ℕ × Card) sortKeyRel where
  trans a b c hab hbc := by
    unfold sortKeyRel at *
    rcases hab with h1 | ⟨h1, h1s⟩ <;> rcases hbc with h2 | ⟨h2, h2s⟩
    · exact Or.inl (h1.trans h2)
    · exact Or.inl (h2 ▸ h1)
    · exact Or.inl (h1 ▸ h2)
    · exact Or.inr ⟨h1.trans h2, strLeb_trans _ _ _ h1s h2s⟩

instance : IsTotal (ℕ × ℕ) rankOrdRel where
  total a b := le_total a.2 b.2

instance : IsTrans (ℕ × ℕ) rankOrdRel where
  trans _ _ _ hab hbc := le_trans hab hbc

instance : IsTotal DiscardSuggestion suggRel where
  total a b := by
    unfold suggRel
    rcases lt_trichotomy a.win_probability b.win_probability with h | h | h
    · exact Or.inr (Or.inl h)
    · rcases le_total a.expected_deadwood b.expected_deadwood with h2 | h2
      · exact Or.inl (Or.inr ⟨h, h2⟩)
      · exact Or.inr (Or.inr ⟨h.symm, h2⟩)
    · exact Or.inl (Or.inl h)

instance : IsTrans DiscardSuggestion suggRel where
  trans a b c hab hbc := by
    unfold suggRel at *
    rcases hab with h1 | ⟨h1, h1d⟩ <;> rcases hbc with h2 | ⟨h2, h2d⟩
    · exact Or.inl (h2.trans h1)
    · exact Or.inl (h2 ▸ h1)
    · exact Or.inl (h1 ▸ h2)
    · exact Or.inr ⟨h1.trans h2, le_trans h1d h2d⟩

/-- Every canonical deck token parses. -/
theorem deck_all_parse : ∀ t ∈ build_deck, (parse_card t).isSome := by decide

/-- C6: for each of the 52 canonical tokens `t` (every rank in `RANKS`
paired with every suit in `SUITS` as `Rank-Suit`), `parse_card t` succeeds
and formatting the parsed card with the `Rank-Suit` rendering used to build
the deck gives back `t`. -/
theorem build_deck_roundtrip :
    build_deck.length = 52 ∧ ∀ t ∈ build_deck, (parse_card t).map format_card = some t :=
  ⟨by decide, by decide⟩

/-- Witness for C6 at the concrete token `"A-hearts"`. -/
theorem build_deck_roundtrip_witness :
    "A-hearts" ∈ build_deck ∧ (parse_card "A-hearts").map format_card = some "A-hearts" :=
  ⟨by decide, build_deck_roundtrip.2 "A-hearts" (by decide)⟩

/-- Fold a guarded accumulation into a sum over a filtered list. -/
theorem foldl_add_if {α : Type} (P : α → Prop) [DecidablePred P] (v : α → ℕ) :
    ∀ (l : List α) (init : ℚ),
      l.foldl (fun score e => if P e then score + (v e : ℚ) else score) init
        = init + (((l.filter (fun e => decide (P e))).map v).sum : ℕ) := by
  intro l
  induction l with
  | nil => intro init; simp
  | cons a l ih =>
    intro init
    simp only [List.foldl_cons, List.filter_cons]
    by_cases h : P a
    · rw [if_pos h, ih, if_pos (decide_eq_true h), List.map_cons, List.sum_cons]
      push_cast
      ring
    · rw [if_neg h, ih, if_neg (by simpa using h)]

/-- Every value stored in `RANK_VALUES` lies in `[1, 13]`. -/
theorem RANK_VALUES_snd_bounds : ∀ p ∈ RANK_VALUES, 1 ≤ p.2 ∧ p.2 ≤ 13 := by decide

/-- A dict lookup either returns the default or a stored value. -/
theorem lookupD_cases (m : List (String × ℕ)) (k : String) (d : ℕ) :
    lookupD m k d = d ∨ ∃ p ∈ m, p.2 = lookupD m k d := by
  unfold lookupD
  cases h : m.find? (fun p => p.1 == k) with
  | none => exact Or.inl rfl
  | some p => exact Or.inr ⟨p, List.mem_of_find?_eq_some h, rfl⟩

/-- Any card produced by `parse_card` has rank value in `[1, 13]`. -/
theorem parse_card_rank_range (s : String) (c : Card) (h : parse_card s = some c) :
    1 ≤ c.1 ∧ c.1 ≤ 13 := by
  unfold parse_card at h
  split at h
  case h_2 => exact absurd h (by simp)
  case h_1 xs q1 q2 hsplit =>
    dsimp only at h
    split at h
    case isTrue => exact absurd h (by simp)
    case isFalse hcond =>
      rcases Option.some_injective _ h with rfl
      simp only [Bool.or_eq_true, beq_iff_eq, not_or] at hcond
      rcases lookupD_cases RANK_VALUES (pyStrip q1) 0 with h0 | ⟨p, hp, hval⟩
      · exact absurd h0 hcond.1
      · have := RANK_VALUES_snd_bounds p hp
        omega

/-- The engine's `DEADWOOD_VALUES` lookup agrees with the spec's per-rank
value on every rank value in range. -/
theorem deadwood_value_spec : ∀ r < 14, 1 ≤ r →
    lookupD DEADWOOD_VALUES (RANKS.getD (r - 1) "") 10 = specDeadwoodValue r := by decide

/-- Every entry of the enumerated parsed hand has rank in `[1, 13]`. -/
theorem parsed_rank_range (hand : List String) :
    ∀ e ∈ (hand.filterMap parse_card).enum, 1 ≤ e.2.1 ∧ e.2.1 ≤ 13 := by
  intro e he
  have h2 : e.2 ∈ hand.filterMap parse_card := by
    have hs := List.enum_map_snd (hand.filterMap parse_card)
    exact hs ▸ List.mem_map_of_mem Prod.snd he
  rcases List.mem_filterMap.mp h2 with ⟨a, _, ha⟩
  exact parse_card_rank_range a e.2 ha

/-- `calculate_deadwood` is the cast of its natural-number sum. -/
theorem calculate_deadwood_eq_cast (hand : List String) :
    calculate_deadwood hand = (deadwoodNatSum hand : ℚ) := by
  unfold calculate_deadwood deadwoodNatSum
  by_cases h : hand.filterMap parse_card = []
  · simp [h]
  · simp only [h, if_neg, ite_false]
    rw [foldl_add_if (fun e : ℕ × Card => e.1 ∉ (find_melds (hand.filterMap parse_card)).1)]
    simp

/-- Deadwood is never negative. -/
theorem calculate_deadwood_nonneg (hand : List String) : 0 ≤ calculate_deadwood hand := by
  rw [calculate_deadwood_eq_cast]
  exact_mod_cast Nat.zero_le _

/-- Parsing only the parseable tokens parses the same cards. -/
theorem filterMap_parse_filter_isSome (hand : List String) :
    (hand.filter (fun c => (parse_card c).isSome)).filterMap parse_card
      = hand.filterMap parse_card := by
  induction hand with
  | nil => rfl
  | cons a l ih =>
    by_cases h : (parse_card a).isSome
    · rcases Option.isSome_iff_exists.mp h with ⟨c, hc⟩
      simp [List.filter_cons, h, List.filterMap_cons, hc, ih]
    · simp only [Option.not_isSome_iff_eq_none] at h
      simp [List.filter_cons, h, List.filterMap_cons, ih]

/-- C2: for every list of tokens, `calculate_deadwood` equals the sum of the
spec's per-rank deadwood values (A=1, 2..9 face value, 10/J/Q/K ten) of the
parseable cards whose index is not in the matched index set returned by the
meld finder; the empty hand scores 0; and unparseable tokens contribute
nothing (dropping them changes nothing). -/
theorem calculate_deadwood_spec (hand : List String) :
    calculate_deadwood hand =
        ((((hand.filterMap parse_card).enum.filter
            (fun e => decide (e.1 ∉ (find_melds (hand.filterMap parse_card)).1))).map
            (fun e => specDeadwoodValue e.2.1)).sum : ℕ)
    ∧ calculate_deadwood [] = 0
    ∧ calculate_deadwood hand
        = calculate_deadwood (hand.filter (fun c => (parse_card c).isSome)) := by
  refine ⟨?_, by simp [calculate_deadwood], ?_⟩
  · rw [calculate_deadwood_eq_cast]
    norm_cast
    unfold deadwoodNatSum
    dsimp only
    congr 1
    apply List.map_congr_left
    intro e he
    have hr := parsed_rank_range hand e (List.mem_of_mem_filter he)
    exact deadwood_value_spec e.2.1 (by omega) (by omega)
  · unfold calculate_deadwood
    rw [filterMap_parse_filter_isSome]

/-! ### Simulation bounds (claims C9, C10) and determinism (claim C1) -/

/-- The best single discard found by the scan has non-negative deadwood. -/
theorem bestDiscardScan_nonneg (l : List String) :
    ∀ (b : ℚ) (c : String), bestDiscardScan l = some (b, c) → 0 ≤ b := by
  unfold bestDiscardScan
  suffices h : ∀ (l2 : List String) (acc : Option (ℚ × String)),
      (∀ b c, acc = some (b, c) → 0 ≤ b) →
      ∀ b c,
        l2.foldl
          (fun acc card_to_try =>
            let test_hand := l.filter (fun c => !(c == card_to_try))
            let dw := calculate_deadwood test_hand
            match acc with
            | none => some (dw, card_to_try)
            | some (b, bc) => if dw < b then some (dw, card_to_try) else some (b, bc))
          acc = some (b, c) → 0 ≤ b by
    exact h l none (by simp)
  intro l2
  induction l2 with
  | nil => intro acc hacc; exact hacc
  | cons a l2 ih =>
    intro acc hacc
    apply ih
    intro b c hbc
    dsimp only at hbc
    match hm : acc with
    | none =>
      dsimp only at hbc
      simp only [Option.some.injEq, Prod.mk.injEq] at hbc
      rw [← hbc.1]
      exact calculate_deadwood_nonneg _
    | some (b0, c0) =>
      dsimp only at hbc
      split at hbc
      · simp only [Option.some.injEq, Prod.mk.injEq] at hbc
        rw [← hbc.1]
        exact calculate_deadwood_nonneg _
      · simp only [Option.some.injEq, Prod.mk.injEq] at hbc
        rw [← hbc.1]
        exact hacc b0 c0 rfl

/-- A draw step never increases the running best deadwood. -/
theorem drawStep_best_le (i : ℚ) (st : List String × ℚ × ℕ) (a : String) :
    (drawStep i st a).2.1 ≤ st.2.1 := by
  unfold drawStep
  dsimp only
  split
  · rename_i b c hscan
    split
    · rename_i hlt
      exact le_of_lt hlt.1
    · rfl
  · rfl

/-- A draw step keeps the running best deadwood non-negative. -/
theorem drawStep_best_nonneg (i : ℚ) (st : List String × ℚ × ℕ) (a : String)
    (h : 0 ≤ st.2.1) : 0 ≤ (drawStep i st a).2.1 := by
  unfold drawStep
  dsimp only
  split
  · rename_i b c hscan
    split
    · exact bestDiscardScan_nonneg _ b c hscan
    · exact h
  · exact h

/-- A draw step increments the improvement counter at most once. -/
theorem drawStep_impr_le (i : ℚ) (st : List String × ℚ × ℕ) (a : String) :
    (drawStep i st a).2.2 ≤ st.2.2 + 1 := by
  unfold drawStep
  dsimp only
  split
  · split
    · dsimp only
      split <;> omega
    · dsimp only; omega
  · dsimp only; omega

/-- Fold form of `drawStep_best_le` and `drawStep_best_nonneg`. -/
theorem foldl_drawStep_best (i : ℚ) :
    ∀ (l : List String) (st : List String × ℚ × ℕ),
      (l.foldl (drawStep i) st).2.1 ≤ st.2.1 ∧
      (0 ≤ st.2.1 → 0 ≤ (l.foldl (drawStep i) st).2.1) := by
  intro l
  induction l with
  | nil => intro st; exact ⟨le_refl _, fun h => h⟩
  | cons a l ih =>
    intro st
    rw [List.foldl_cons]
    refine ⟨(ih (drawStep i st a)).1.trans (drawStep_best_le i st a), fun h => ?_⟩
    exact (ih (drawStep i st a)).2 (drawStep_best_nonneg i st a h)

/-- Fold form of `drawStep_impr_le`. -/
theorem foldl_drawStep_impr (i : ℚ) :
    ∀ (l : List String) (st : List String × ℚ × ℕ),
      (l.foldl (drawStep i) st).2.2 ≤ st.2.2 + l.length := by
  intro l
  induction l with
  | nil => intro st; simp
  | cons a l ih =>
    intro st
    rw [List.foldl_cons]
    calc (l.foldl (drawStep i) (drawStep i st a)).2.2
        ≤ (drawStep i st a).2.2 + l.length := ih _
      _ ≤ (st.2.2 + 1) + l.length := by
          have := drawStep_impr_le i st a
          omega
      _ = st.2.2 + (a :: l).length := by simp; omega

/-- One trial's best deadwood lies in `[0, initial_deadwood]`. -/
theorem runTrial_best_bounds (i : ℚ) (hand deck : List String) (m : ℕ) (hi : 0 ≤ i) :
    0 ≤ (runTrial i hand deck m).1 ∧ (runTrial i hand deck m).1 ≤ i := by
  unfold runTrial
  dsimp only
  constructor
  · exact (foldl_drawStep_best i _ (hand, i, 0)).2 hi
  · exact (foldl_drawStep_best i _ (hand, i, 0)).1

/-- One trial increments the improvement counter at most
`min max_draws (deck length)` times, hence at most `max_draws` times. -/
theorem runTrial_impr_le (i : ℚ) (hand deck : List String) (m : ℕ) :
    (runTrial i hand deck m).2 ≤ m := by
  unfold runTrial
  dsimp only
  have h := foldl_drawStep_impr i (deck.take (min m deck.length)) (hand, i, 0)
  dsimp only at h
  have hlen : (deck.take (min m deck.length)).length ≤ m := by
    simp only [List.length_take]
    omega
  omega

/-- Bounds on the accumulator of the trials loop of `simulate_game`:
the deadwood total stays in `[0, n·initial]` and the improvement total
grows by at most `max_draws` per trial. -/
theorem simulate_trials_fold_bounds (hand deck : List String) (m : ℕ)
    (shuffle : ℕ → List String → List String) (i : ℚ) (hi : 0 ≤ i) :
    ∀ (l : List ℕ) (acc : ℚ × ℕ),
      (0 ≤ acc.1 → 0 ≤ (l.foldl (fun (acc : ℚ × ℕ) t =>
          (acc.1 + (runTrial i hand (shuffle t deck) m).1,
           acc.2 + (runTrial i hand (shuffle t deck) m).2)) acc).1) ∧
      (l.foldl (fun (acc : ℚ × ℕ) t =>
          (acc.1 + (runTrial i hand (shuffle t deck) m).1,
           acc.2 + (runTrial i hand (shuffle t deck) m).2)) acc).1
        ≤ acc.1 + l.length * i ∧
      (l.foldl (fun (acc : ℚ × ℕ) t =>
          (acc.1 + (runTrial i hand (shuffle t deck) m).1,
           acc.2 + (runTrial i hand (shuffle t deck) m).2)) acc).2
        ≤ acc.2 + l.length * m := by
  intro l
  induction l with
  | nil => intro acc; refine ⟨fun h => h, by simp, by simp⟩
  | cons t l ih =>
    intro acc
    rw [List.foldl_cons]
    have hr := runTrial_best_bounds i hand (shuffle t deck) m hi
    have hr2 := runTrial_impr_le i hand (shuffle t deck) m
    obtain ⟨ih0, ih1, ih2⟩ := ih
      (acc.1 + (runTrial i hand (shuffle t deck) m).1,
       acc.2 + (runTrial i hand (shuffle t deck) m).2)
    refine ⟨fun h => ih0 (by dsimp only; linarith [hr.1]), ?_, ?_⟩
    · refine ih1.trans ?_
      dsimp only
      have : ((t :: l).length : ℚ) * i = l.length * i + i := by
        simp only [List.length_cons]
        push_cast
        ring
      rw [this]
      linarith [hr.2]
    · refine ih2.trans ?_
      dsimp only
      simp only [List.length_cons]
      have : (l.length + 1) * m = l.length * m + m := by ring
      omega

/-- C9: for every hand, non-empty unknown deck and at least one trial, the
average deadwood reported by `simulate_game` lies between 0 and the current
deadwood of the hand — per trial the best deadwood starts at the initial
deadwood and is only ever replaced by a strictly smaller non-negative
value. -/
theorem simulate_game_avg_bounds :
    ∀ (hand unknown_deck : List String) (trials max_draws : ℕ)
      (shuffle : ℕ → List String → List String),
      unknown_deck ≠ [] → 1 ≤ trials →
      0 ≤ (simulate_game hand unknown_deck trials max_draws shuffle).1 ∧
      (simulate_game hand unknown_deck trials max_draws shuffle).1
        ≤ calculate_deadwood hand := by
  intro hand deck trials m shuffle hdeck htr
  unfold simulate_game
  rw [if_neg hdeck]
  dsimp only
  have hi := calculate_deadwood_nonneg hand
  obtain ⟨h0, h1, _⟩ := simulate_trials_fold_bounds hand deck m shuffle
    (calculate_deadwood hand) hi (List.range trials) (0, 0)
  have htrq : (0 : ℚ) < trials := by exact_mod_cast htr
  constructor
  · exact div_nonneg (h0 (le_refl 0)) (le_of_lt htrq)
  · rw [div_le_iff₀ htrq]
    simp only [List.length_range] at h1
    calc _ ≤ (0 : ℚ) + trials * calculate_deadwood hand := h1
      _ = calculate_deadwood hand * trials := by ring

/-- Witness for C9 at a concrete one-card hand and one-card deck. -/
theorem simulate_game_avg_bounds_witness :
    (["A-spades"] : List String) ≠ [] ∧ 1 ≤ 1 ∧
    (0 ≤ (simulate_game ["K-hearts"] ["A-spades"] 1 1 (fun _ l => l)).1 ∧
     (simulate_game ["K-hearts"] ["A-spades"] 1 1 (fun _ l => l)).1
       ≤ calculate_deadwood ["K-hearts"]) :=
  ⟨by decide, le_refl 1,
    simulate_game_avg_bounds ["K-hearts"] ["A-spades"] 1 1 (fun _ l => l)
      (by decide) (le_refl 1)⟩

/-- C10: for every hand, non-empty unknown deck, at least one trial and at
least one draw, the improvement rate reported by `simulate_game` lies in
`[0, max_draws]` — each trial increments the improvement counter at most
once per draw step and performs at most `max_draws` draw steps. -/
theorem simulate_game_rate_bounds :
    ∀ (hand unknown_deck : List String) (trials max_draws : ℕ)
      (shuffle : ℕ → List String → List String),
      unknown_deck ≠ [] → 1 ≤ trials → 1 ≤ max_draws →
      0 ≤ (simulate_game hand unknown_deck trials max_draws shuffle).2 ∧
      (simulate_game hand unknown_deck trials max_draws shuffle).2 ≤ (max_draws : ℚ) := by
  intro hand deck trials m shuffle hdeck htr _
  unfold simulate_game
  rw [if_neg hdeck]
  dsimp only
  have hi := calculate_deadwood_nonneg hand
  obtain ⟨_, _, h2⟩ := simulate_trials_fold_bounds hand deck m shuffle
    (calculate_deadwood hand) hi (List.range trials) (0, 0)
  have htrq : (0 : ℚ) < trials := by exact_mod_cast htr
  constructor
  · exact div_nonneg (by positivity) (le_of_lt htrq)
  · rw [div_le_iff₀ htrq]
    simp only [List.length_range] at h2
    have : ((List.range trials).foldl (fun (acc : ℚ × ℕ) t =>
        (acc.1 + (runTrial (calculate_deadwood hand) hand (shuffle t deck) m).1,
         acc.2 + (runTrial (calculate_deadwood hand) hand (shuffle t deck) m).2))
        ((0 : ℚ), (0 : ℕ))).2 ≤ trials * m := by
      simpa using h2
    calc ((((List.range trials).foldl (fun (acc : ℚ × ℕ) t =>
          (acc.1 + (runTrial (calculate_deadwood hand) hand (shuffle t deck) m).1,
           acc.2 + (runTrial (calculate_deadwood hand) hand (shuffle t deck) m).2))
          ((0 : ℚ), (0 : ℕ))).2 : ℕ) : ℚ)
        ≤ ((trials * m : ℕ) : ℚ) := by exact_mod_cast this
      _ = (m : ℚ) * trials := by push_cast; ring

/-- Witness for C10 at a concrete one-card hand and one-card deck. -/
theorem simulate_game_rate_bounds_witness :
    (["A-spades"] : List String) ≠ [] ∧ 1 ≤ 1 ∧
    (0 ≤ (simulate_game ["Q-hearts"] ["A-spades"] 1 1 (fun _ l => l)).2 ∧
     (simulate_game ["Q-hearts"] ["A-spades"] 1 1 (fun _ l => l)).2 ≤ ((1 : ℕ) : ℚ)) :=
  ⟨by decide, le_refl 1,
    simulate_game_rate_bounds ["Q-hearts"] ["A-spades"] 1 1 (fun _ l => l)
      (by decide) (le_refl 1) (le_refl 1)⟩

/-- C1 (supporting theorem): in the embedding, `simulate_game` is a pure
function of its inputs and of the explicitly supplied random source; two
calls with identical inputs and pointwise-identical shuffle families return
identical `(averageDeadwood, improvementRate)` pairs.  (The source itself
draws from the `random` module's implicit global generator instead of a
caller-supplied source; that divergence is the subject of claim C1.) -/
theorem simulate_game_deterministic :
    ∀ (hand unknown_deck : List String) (trials max_draws : ℕ)
      (s1 s2 : ℕ → List String → List String),
      (∀ t d, s1 t d = s2 t d) →
      simulate_game hand unknown_deck trials max_draws s1
        = simulate_game hand unknown_deck trials max_draws s2 := by
  intro hand deck trials m s1 s2 h
  have hs : s1 = s2 := funext (fun t => funext (fun d => h t d))
  rw [hs]

/-- Witness for the C1 determinism theorem at concrete inputs. -/
theorem simulate_game_deterministic_witness :
    simulate_game ["A-hearts"] ["2-clubs"] 1 1 (fun _ l => l)
      = simulate_game ["A-hearts"] ["2-clubs"] 1 1 (fun _ l => l) :=
  simulate_game_deterministic ["A-hearts"] ["2-clubs"] 1 1
    (fun _ l => l) (fun _ l => l) (fun _ _ => rfl)

/-! ### DiscardAdvisor (claims C5, C7) -/

/-- The endpoint's `invalid_cards` computation is the hand filtered to its
unparseable tokens. -/
theorem invalid_cards_eq_filter (l : List String) :
    ((l.zip (l.map parse_card)).filter (fun p => p.2 == none)).map Prod.fst
      = l.filter (fun c => (parse_card c).isNone) := by
  induction l with
  | nil => rfl
  | cons a l ih =>
    simp only [List.map_cons, List.zip_cons_cons, List.filter_cons]
    by_cases h : parse_card a = none
    · rw [if_pos (by simpa using h), if_pos (by simp [h])]
      simp only [List.map_cons, ih]
    · rw [if_neg (by simpa using h), if_neg (by simp [Option.isNone_iff_eq_none, h])]
      exact ih

/-- On a duplicate-free list, `firstOccur` keeps everything. -/
theorem firstOccur_eq_of_nodup [DecidableEq α] :
    ∀ (l : List α), l.Nodup → firstOccur l = l := by
  have aux : ∀ (l : List α) (seen : List α), l.Nodup → (∀ x ∈ l, x ∉ seen) →
      firstOccurAux seen l = l := by
    intro l
    induction l with
    | nil => intro seen _ _; rfl
    | cons a l ih =>
      intro seen hnd hdisj
      rw [firstOccurAux, if_neg (hdisj a (List.mem_cons_self a l))]
      congr 1
      apply ih _ (List.Nodup.of_cons hnd)
      intro x hx
      simp only [List.mem_cons, not_or]
      exact ⟨fun hxa => (List.nodup_cons.mp hnd).1 (hxa ▸ hx), hdisj x (List.mem_cons_of_mem a hx)⟩
  intro l h
  exact aux l [] h (by simp)

/-- Membership in a list of canonical deck tokens is unchanged by dropping
unparseable tokens from the tested list. -/
theorem contains_filter_isSome (visible : List String) (c : String)
    (hc : (parse_card c).isSome) :
    (visible.filter (fun v => (parse_card v).isSome)).contains c = visible.contains c := by
  show List.elem c (visible.filter (fun v => (parse_card v).isSome)) = List.elem c visible
  by_cases hm : c ∈ visible
  · rw [List.elem_eq_true_of_mem (List.mem_filter.mpr ⟨hm, hc⟩), List.elem_eq_true_of_mem hm]
  · have h1 : c ∉ visible.filter (fun v => (parse_card v).isSome) :=
      fun h => hm (List.mem_of_mem_filter h)
    cases hv1 : List.elem c (visible.filter (fun v => (parse_card v).isSome)) with
    | false =>
      cases hv2 : List.elem c visible with
      | false => rfl
      | true => exact absurd (List.mem_of_elem_eq_true hv2) hm
    | true => exact absurd (List.mem_of_elem_eq_true hv1) h1

/-- C5: for every valid advisory request (all hand tokens parse, no
duplicates, bounds respected, unknown deck non-empty), `suggest_discard`
returns exactly one suggestion per hand card, the suggestion cards are a
permutation of the hand, and the list is sorted with non-increasing
`win_probability` and, among equal `win_probability`, non-decreasing
`expected_deadwood`. -/
theorem suggest_discard_complete_sorted :
    ∀ (my_hand visible : List String) (trials max_draws : ℕ)
      (shuffles : ℕ → ℕ → List String → List String),
      (∀ c ∈ my_hand, (parse_card c).isSome) → my_hand.Nodup →
      50 ≤ trials → trials ≤ 2000 → 1 ≤ max_draws → max_draws ≤ 10 →
      build_deck.filter (fun c => !(my_hand.contains c) && !(visible.contains c)) ≠ [] →
      ∃ res : SuggestResponse,
        suggest_discard my_hand visible trials max_draws shuffles = .ok res ∧
        res.suggestions.length = my_hand.length ∧
        (res.suggestions.map (fun s => s.card)).Perm my_hand ∧
        res.suggestions.Pairwise (fun a b =>
          b.win_probability ≤ a.win_probability ∧
          (a.win_probability = b.win_probability →
            a.expected_deadwood ≤ b.expected_deadwood)) := by
  intro my_hand visible trials max_draws shuffles hparse hnodup _ _ _ _ hdeck
  unfold suggest_discard
  have hinv : ((my_hand.zip (my_hand.map parse_card)).filter
      (fun p => p.2 == none)).map Prod.fst = [] := by
    rw [invalid_cards_eq_filter]
    rw [List.filter_eq_nil_iff]
    intro c hc
    have := hparse c hc
    simp [Option.isNone_iff_eq_none]
    exact Option.isSome_iff_ne_none.mp this
  rw [if_neg (fun h => h hinv)]
  rw [if_neg (fun h => h (by rw [firstOccur_eq_of_nodup my_hand hnodup]))]
  rw [if_neg (fun h => hdeck (List.length_eq_zero.mp h))]
  refine ⟨_, rfl, ?_, ?_, ?_⟩
  · dsimp only
    rw [(List.perm_insertionSort suggRel _).length_eq, List.length_map, List.enum_length]
  · dsimp only
    refine ((List.perm_insertionSort suggRel _).map _).trans ?_
    rw [List.map_map]
    exact List.Perm.of_eq (List.enum_map_snd my_hand)
  · dsimp only
    have hs := List.sorted_insertionSort suggRel
      (my_hand.enum.map (fun e =>
        let card_to_discard := e.2
        let remaining_hand := my_hand.filter (fun c => !(c == card_to_discard))
        let sim := simulate_game remaining_hand
          (build_deck.filter (fun c => !(my_hand.contains c) && !(visible.contains c)))
          trials max_draws (shuffles e.1)
        let normalized_prob :=
          if 0 < calculate_deadwood my_hand then
            sim.2 * (1 - min (sim.1 / (calculate_deadwood my_hand + 1)) 1)
          else sim.2
        { card := card_to_discard
          win_probability := min (max normalized_prob 0) 1
          expected_deadwood := round2 sim.1
          confidence := get_confidence_level normalized_prob trials : DiscardSuggestion }))
    refine hs.imp ?_
    intro a b hab
    rcases hab with h | ⟨h1, h2⟩
    · exact ⟨le_of_lt h, fun heq => absurd (heq ▸ h) (lt_irrefl _)⟩
    · exact ⟨le_of_eq h1.symm, fun _ => h2⟩

/-- Witness for C5 at the spec's advisor scenario (5-card hand, default
trials and draws, identity shuffles). -/
theorem suggest_discard_complete_sorted_witness :
    (∀ c ∈ (["A-hearts", "2-hearts", "3-hearts", "K-spades", "5-diamonds"] : List String),
      (parse_card c).isSome) ∧
    (["A-hearts", "2-hearts", "3-hearts", "K-spades", "5-diamonds"] : List String).Nodup ∧
    build_deck.filter (fun c =>
      !((["A-hearts", "2-hearts", "3-hearts", "K-spades", "5-diamonds"] : List String).contains c)
        && !(([] : List String).contains c)) ≠ [] ∧
    ∃ res : SuggestResponse,
      suggest_discard ["A-hearts", "2-hearts", "3-hearts", "K-spades", "5-diamonds"] [] 200 5
          (fun _ _ l => l) = .ok res ∧
      res.suggestions.length
        = (["A-hearts", "2-hearts", "3-hearts", "K-spades", "5-diamonds"] : List String).length ∧
      (res.suggestions.map (fun s => s.card)).Perm
        ["A-hearts", "2-hearts", "3-hearts", "K-spades", "5-diamonds"] ∧
      res.suggestions.Pairwise (fun a b =>
        b.win_probability ≤ a.win_probability ∧
        (a.win_probability = b.win_probability →
          a.expected_deadwood ≤ b.expected_deadwood)) :=
  ⟨by decide, by decide, by decide,
    suggest_discard_complete_sorted
      ["A-hearts", "2-hearts", "3-hearts", "K-spades", "5-diamonds"] [] 200 5 (fun _ _ l => l)
      (by decide) (by decide) (by decide) (by decide) (by decide) (by decide) (by decide)⟩

/-- C7: an advisory request with at least one unparseable hand token fails
with `invalidCardFormat` carrying exactly the offending tokens (no
simulation result is produced), while for a valid hand, unparseable tokens
in the visible list never cause rejection: the request behaves identically
to the same request with those tokens dropped. -/
theorem suggest_discard_error_handling :
    (∀ (my_hand visible : List String) (trials max_draws : ℕ)
       (shuffles : ℕ → ℕ → List String → List String),
       (∃ c ∈ my_hand, parse_card c = none) →
       suggest_discard my_hand visible trials max_draws shuffles
         = .error (.invalidCardFormat
             (my_hand.filter (fun c => (parse_card c).isNone)))) ∧
    (∀ (my_hand visible : List String) (trials max_draws : ℕ)
       (shuffles : ℕ → ℕ → List String → List String),
       (∀ c ∈ my_hand, (parse_card c).isSome) → my_hand.Nodup →
       suggest_discard my_hand visible trials max_draws shuffles
         = suggest_discard my_hand (visible.filter (fun v => (parse_card v).isSome))
             trials max_draws shuffles) := by
  constructor
  · intro my_hand visible trials max_draws shuffles hex
    obtain ⟨c, hc, hcn⟩ := hex
    unfold suggest_discard
    dsimp only
    rw [invalid_cards_eq_filter]
    have hne : my_hand.filter (fun c => (parse_card c).isNone) ≠ [] :=
      List.ne_nil_of_mem
        (List.mem_filter.mpr ⟨hc, by simp [Option.isNone_iff_eq_none, hcn]⟩)
    rw [if_pos hne]
  · intro my_hand visible trials max_draws shuffles hparse hnodup
    unfold suggest_discard
    dsimp only
    have hdeckeq : build_deck.filter
          (fun c => !(my_hand.contains c) && !(visible.contains c))
        = build_deck.filter (fun c => !(my_hand.contains c) &&
            !((visible.filter (fun v => (parse_card v).isSome)).contains c)) := by
      apply List.filter_congr
      intro c hc
      rw [contains_filter_isSome visible c (deck_all_parse c hc)]
    rw [hdeckeq]

/-- Witness for C7: a hand with the unparseable token `"Z-hearts"` is
rejected with exactly that token reported, and an unparseable visible token
(`"bogus"`) is merely dropped. -/
theorem suggest_discard_error_handling_witness :
    (∃ c ∈ (["Z-hearts"] : List String), parse_card c = none) ∧
    suggest_discard ["Z-hearts"] [] 50 1 (fun _ _ l => l)
      = .error (.invalidCardFormat
          ((["Z-hearts"] : List String).filter (fun c => (parse_card c).isNone))) ∧
    suggest_discard ["A-hearts"] ["bogus"] 50 1 (fun _ _ l => l)
      = suggest_discard ["A-hearts"]
          ((["bogus"] : List String).filter (fun v => (parse_card v).isSome)) 50 1
          (fun _ _ l => l) :=
  ⟨⟨"Z-hearts", by decide, by decide⟩,
    suggest_discard_error_handling.1 ["Z-hearts"] [] 50 1 (fun _ _ l => l)
      ⟨"Z-hearts", by decide, by decide⟩,
    suggest_discard_error_handling.2 ["A-hearts"] ["bogus"] 50 1 (fun _ _ l => l)
      (by decide) (by decide)⟩

/-! ### MeldFinder structure (claims C3, C4, C8) -/

/-- Membership in the inner index-collecting fold of `meldIndices`. -/
theorem mem_meld_fold (m : List (ℕ × Card)) :
    ∀ (s : Finset ℕ) (i : ℕ),
      i ∈ m.foldl (fun s2 p => insert p.1 s2) s ↔ i ∈ s ∨ ∃ c, (i, c) ∈ m := by
  induction m with
  | nil => intro s i; simp
  | cons p m ih =>
    intro s i
    rw [List.foldl_cons, ih]
    constructor
    · rintro (hs | ⟨c, hc⟩)
      · rcases Finset.mem_insert.mp hs with h | h
        · right
          refine ⟨p.2, ?_⟩
          rw [h]
          exact List.mem_cons_self p m
        · exact Or.inl h
      · exact Or.inr ⟨c, List.mem_cons_of_mem p hc⟩
    · rintro (hs | ⟨c, hc⟩)
      · exact Or.inl (Finset.mem_insert_of_mem hs)
      · rcases List.mem_cons.mp hc with h | h
        · exact Or.inl (Finset.mem_insert.mpr (Or.inl (congrArg Prod.fst h)))
        · exact Or.inr ⟨c, h⟩

/-- Membership in `meldIndices`: exactly the indices covered by some meld. -/
theorem mem_meldIndices (L : List (List (ℕ × Card))) :
    ∀ i : ℕ, i ∈ meldIndices L ↔ ∃ m ∈ L, ∃ c, (i, c) ∈ m := by
  unfold meldIndices
  suffices h : ∀ (s : Finset ℕ) (i : ℕ),
      i ∈ L.foldl (fun s m => m.foldl (fun s2 p => insert p.1 s2) s) s ↔
        i ∈ s ∨ ∃ m ∈ L, ∃ c, (i, c) ∈ m by
    intro i
    rw [h ∅ i]
    simp
  induction L with
  | nil => intro s i; simp
  | cons m L ih =>
    intro s i
    rw [List.foldl_cons, ih, mem_meld_fold]
    constructor
    · rintro (⟨hs | ⟨c, hc⟩⟩ | ⟨m2, hm2, c, hc⟩)
      · exact Or.inl hs
      · exact Or.inr ⟨m, List.mem_cons_self m L, c, hc⟩
      · exact Or.inr ⟨m2, List.mem_cons_of_mem m hm2, c, hc⟩
    · rintro (hs | ⟨m2, hm2, c, hc⟩)
      · exact Or.inl (Or.inl hs)
      · rcases List.mem_cons.mp hm2 with h | h
        · exact Or.inl (Or.inr ⟨c, h ▸ hc⟩)
        · exact Or.inr ⟨m2, h, c, hc⟩

/-- Membership in `firstOccurAux`. -/
theorem mem_firstOccurAux [DecidableEq α] :
    ∀ (l : List α) (seen : List α) (x : α),
      x ∈ firstOccurAux seen l ↔ x ∈ l ∧ x ∉ seen := by
  intro l
  induction l with
  | nil => intro seen x; simp [firstOccurAux]
  | cons a l ih =>
    intro seen x
    rw [firstOccurAux]
    by_cases h : a ∈ seen
    · rw [if_pos h, ih]
      constructor
      · rintro ⟨hx, hs⟩
        exact ⟨List.mem_cons_of_mem a hx, hs⟩
      · rintro ⟨hx, hs⟩
        rcases List.mem_cons.mp hx with rfl | hx
        · exact absurd h hs
        · exact ⟨hx, hs⟩
    · rw [if_neg h]
      constructor
      · intro hx
        rcases List.mem_cons.mp hx with rfl | hx
        · exact ⟨List.mem_cons_self x l, h⟩
        · rcases (ih (a :: seen) x).mp hx with ⟨h1, h2⟩
          simp only [List.mem_cons, not_or] at h2
          exact ⟨List.mem_cons_of_mem a h1, h2.2⟩
      · rintro ⟨hx, hs⟩
        rcases List.mem_cons.mp hx with rfl | hx
        · exact List.mem_cons_self x _
        · by_cases hxa : x = a
          · exact hxa ▸ List.mem_cons_self a _
          · refine List.mem_cons_of_mem a ((ih (a :: seen) x).mpr ⟨hx, ?_⟩)
            simp only [List.mem_cons, not_or]
            exact ⟨hxa, hs⟩

/-- Membership in `firstOccur`. -/
theorem mem_firstOccur [DecidableEq α] (l : List α) (x : α) :
    x ∈ firstOccur l ↔ x ∈ l := by
  rw [firstOccur, mem_firstOccurAux]
  simp

/-- `firstOccurAux` never repeats an element. -/
theorem nodup_firstOccurAux [DecidableEq α] :
    ∀ (l : List α) (seen : List α), (firstOccurAux seen l).Nodup := by
  intro l
  induction l with
  | nil => intro seen; exact List.nodup_nil
  | cons a l ih =>
    intro seen
    rw [firstOccurAux]
    by_cases h : a ∈ seen
    · rw [if_pos h]; exact ih seen
    · rw [if_neg h]
      refine List.nodup_cons.mpr ⟨?_, ih (a :: seen)⟩
      intro hmem
      exact ((mem_firstOccurAux l (a :: seen) a).mp hmem).2 (List.mem_cons_self a seen)

/-- `firstOccur` never repeats an element. -/
theorem nodup_firstOccur [DecidableEq α] (l : List α) : (firstOccur l).Nodup :=
  nodup_firstOccurAux l []

/-- `sorted_hand` is a permutation of the enumerated hand. -/
theorem sorted_hand_perm (parsed_hand : List Card) :
    (sorted_hand parsed_hand).Perm parsed_hand.enum :=
  List.perm_insertionSort sortKeyRel parsed_hand.enum

/-- `sorted_hand` is sorted for the Python sort key. -/
theorem sorted_hand_pairwise (parsed_hand : List Card) :
    (sorted_hand parsed_hand).Pairwise sortKeyRel :=
  List.sorted_insertionSort sortKeyRel parsed_hand.enum

/-- The enumerated hand mentions every index once. -/
theorem enum_pairwise_idx (parsed_hand : List Card) :
    parsed_hand.enum.Pairwise (fun a b => a.1 ≠ b.1) := by
  have h1 : (parsed_hand.enum.map Prod.fst).Nodup := by
    rw [List.enum_map_fst]
    exact List.nodup_range _
  rw [List.Nodup, List.pairwise_map] at h1
  exact h1

/-- The index-distinctness of the enumeration survives sorting. -/
theorem sorted_hand_pairwise_idx (parsed_hand : List Card) :
    (sorted_hand parsed_hand).Pairwise (fun a b => a.1 ≠ b.1) :=
  ((sorted_hand_perm parsed_hand).pairwise_iff (fun hne heq => hne heq.symm)).mpr
    (enum_pairwise_idx parsed_hand)

/-- Membership in `sorted_hand` is membership in the enumeration. -/
theorem mem_sorted_hand (parsed_hand : List Card) (e : ℕ × Card) :
    e ∈ sorted_hand parsed_hand ↔ e ∈ parsed_hand.enum :=
  (sorted_hand_perm parsed_hand).mem_iff

/-- An index determines its card in the enumeration. -/
theorem enum_idx_det (parsed_hand : List Card) (i : ℕ) (c1 c2 : Card)
    (h1 : (i, c1) ∈ parsed_hand.enum) (h2 : (i, c2) ∈ parsed_hand.enum) : c1 = c2 := by
  rw [List.mem_enum_iff_getElem?] at h1 h2
  rw [h1] at h2
  exact Option.some_injective _ h2

/-- For a duplicate-free hand, distinct entries of `sorted_hand` carry
distinct cards. -/
theorem sorted_hand_pairwise_card (parsed_hand : List Card) (h : parsed_hand.Nodup) :
    (sorted_hand parsed_hand).Pairwise (fun a b => a.2 ≠ b.2) := by
  have h1 : (parsed_hand.enum.map Prod.snd).Nodup := by
    rw [List.enum_map_snd]
    exact h
  rw [List.Nodup, List.pairwise_map] at h1
  exact ((sorted_hand_perm parsed_hand).pairwise_iff (fun hne heq => hne heq.symm)).mpr h1

/-- Membership in a rank bucket. -/
theorem mem_rank_group (sh : List (ℕ × Card)) (r : ℕ) (i : ℕ) (s : String) :
    (i, s) ∈ rank_group sh r ↔ (i, (r, s)) ∈ sh := by
  unfold rank_group
  rw [List.mem_map]
  constructor
  · rintro ⟨e, he, heq⟩
    rcases List.mem_filter.mp he with ⟨hmem, hrk⟩
    have hr : e.2.1 = r := by simpa using hrk
    have : e = (i, (r, s)) := by
      obtain ⟨i2, r2, s2⟩ := e
      simp only [Prod.mk.injEq] at heq ⊢
      simp only at hr
      exact ⟨heq.1, hr, heq.2⟩
    exact this ▸ hmem
  · intro hmem
    exact ⟨(i, (r, s)), List.mem_filter.mpr ⟨hmem, by simp⟩, rfl⟩

/-- Every card collected by `takeSetCards` is either from the accumulator or
from the walked bucket, tagged with the bucket's rank. -/
theorem takeSetCards_mem (r : ℕ) :
    ∀ (cards : List (ℕ × String)) (used : List String) (acc : List (ℕ × Card)),
      ∀ p ∈ takeSetCards r cards used acc,
        p ∈ acc ∨ ∃ s, (p.1, s) ∈ cards ∧ p.2 = (r, s) := by
  intro cards
  induction cards with
  | nil => intro used acc p hp; exact Or.inl hp
  | cons c rest ih =>
    intro used acc p hp
    obtain ⟨idx, s⟩ := c
    rw [takeSetCards] at hp
    split at hp
    · rcases ih used acc p hp with h | ⟨s2, hs2, hps⟩
      · exact Or.inl h
      · exact Or.inr ⟨s2, List.mem_cons_of_mem _ hs2, hps⟩
    · dsimp only at hp
      split at hp
      · rcases List.mem_append.mp hp with h | h
        · exact Or.inl h
        · rcases List.mem_singleton.mp h with rfl
          exact Or.inr ⟨s, List.mem_cons_self _ _, rfl⟩
      · rcases ih (s :: used) (acc ++ [(idx, (r, s))]) p hp with h | ⟨s2, hs2, hps⟩
        · rcases List.mem_append.mp h with h2 | h2
          · exact Or.inl h2
          · rcases List.mem_singleton.mp h2 with rfl
            exact Or.inr ⟨s, List.mem_cons_self _ _, rfl⟩
        · exact Or.inr ⟨s2, List.mem_cons_of_mem _ hs2, hps⟩

/-- Destructing a phase-1 meld: it was emitted for some rank of the order
list, passed the guards, and is the suit-walk's collection for that rank. -/
theorem setMeldsIndexed_dest (parsed_hand : List Card) (m : List (ℕ × Card))
    (hm : m ∈ setMeldsIndexed parsed_hand) :
    ∃ r, r ∈ rank_groups_order (sorted_hand parsed_hand) ∧
      3 ≤ (rank_group (sorted_hand parsed_hand) r).length ∧
      3 ≤ ((rank_group (sorted_hand parsed_hand) r).map Prod.snd).toFinset.card ∧
      m = takeSetCards r (rank_group (sorted_hand parsed_hand) r) [] [] ∧
      3 ≤ m.length := by
  unfold setMeldsIndexed at hm
  rw [List.mem_filterMap] at hm
  obtain ⟨r, hr, hsome⟩ := hm
  dsimp only at hsome
  refine ⟨r, hr, ?_⟩
  split at hsome
  · split at hsome
    · split at hsome
      · rename_i hlen hsuits hsc
        exact ⟨hlen, hsuits, (Option.some_injective _ hsome).symm,
          (Option.some_injective _ hsome) ▸ hsc⟩
      · exact absurd hsome (by simp)
    · exact absurd hsome (by simp)
  · exact absurd hsome (by simp)

/-- Every entry of a phase-1 meld is an entry of `sorted_hand` whose card
has the meld's rank. -/
theorem setMeldsIndexed_entry (parsed_hand : List Card) (m : List (ℕ × Card))
    (hm : m ∈ setMeldsIndexed parsed_hand) :
    ∃ r, ∀ p ∈ m, p.2.1 = r ∧ (p.1, p.2) ∈ sorted_hand parsed_hand := by
  obtain ⟨r, _, _, _, hmeq, _⟩ := setMeldsIndexed_dest parsed_hand m hm
  refine ⟨r, ?_⟩
  intro p hp
  rw [hmeq] at hp
  rcases takeSetCards_mem r _ [] [] p hp with h | ⟨s, hs, hps⟩
  · exact absurd h (List.not_mem_nil p)
  · rw [mem_rank_group] at hs
    constructor
    · rw [hps]
    · have : (p.1, p.2) = (p.1, (r, s)) := by rw [hps]
      rw [this]
      exact hs

/-- Membership in `matched1`: exactly the indices of phase-1 melds. -/
theorem mem_matched1 (parsed_hand : List Card) (i : ℕ) :
    i ∈ matched1 parsed_hand ↔
      ∃ m ∈ setMeldsIndexed parsed_hand, ∃ c, (i, c) ∈ m :=
  mem_meldIndices (setMeldsIndexed parsed_hand) i

/-- Membership in a suit bucket. -/
theorem mem_suit_group (parsed_hand : List Card) (s : String) (i rk : ℕ) :
    (i, rk) ∈ suit_group parsed_hand s ↔
      ((i, (rk, s)) ∈ sorted_hand parsed_hand ∧ i ∉ matched1 parsed_hand) := by
  unfold suit_group availAfterSets
  rw [List.mem_map]
  constructor
  · rintro ⟨e, he, heq⟩
    rcases List.mem_filter.mp he with ⟨hmem, hsuit⟩
    rcases List.mem_filter.mp hmem with ⟨hsh, hcond⟩
    have hs : e.2.2 = s := by simpa using hsuit
    have hu : e.1 ∉ matched1 parsed_hand := by simpa using hcond
    have : e = (i, (rk, s)) := by
      obtain ⟨i2, r2, s2⟩ := e
      simp only [Prod.mk.injEq] at heq ⊢
      simp only at hs
      exact ⟨heq.1, heq.2, hs⟩
    rw [this] at hsh hu
    exact ⟨hsh, hu⟩
  · rintro ⟨hsh, hu⟩
    exact ⟨(i, (rk, s)),
      List.mem_filter.mpr ⟨List.mem_filter.mpr ⟨hsh, by simpa using hu⟩, by simp⟩, rfl⟩

/-- The phase-2 scan is the unfiltered block scan followed by the
length ≥ 3 filter. -/
theorem scanAux_eq_filter :
    ∀ (l : List (ℕ × ℕ)) (cur : List (ℕ × ℕ)) (prev : ℕ × ℕ),
      scanAux cur prev l = (blocksAux cur prev l).filter (fun b => decide (3 ≤ b.length)) := by
  intro l
  induction l with
  | nil =>
    intro cur prev
    rw [scanAux, blocksAux]
    by_cases h : 3 ≤ cur.length
    · rw [if_pos h]
      simp [h]
    · rw [if_neg h]
      simp [h]
  | cons c rest ih =>
    intro cur prev
    rw [scanAux, blocksAux]
    by_cases h : c.2 = prev.2 + 1
    · rw [if_pos h, if_pos h, ih]
    · rw [if_neg h, if_neg h, List.filter_cons, ih]
      by_cases h2 : 3 ≤ cur.length
      · rw [if_pos h2, if_pos (decide_eq_true h2)]
        rfl
      · rw [if_neg h2, if_neg (by simpa using h2)]
        rfl

/-- The unfiltered blocks concatenate back to the scanned list. -/
theorem blocksAux_flatten :
    ∀ (l : List (ℕ × ℕ)) (cur : List (ℕ × ℕ)) (prev : ℕ × ℕ),
      (blocksAux cur prev l).flatten = cur ++ l := by
  intro l
  induction l with
  | nil => intro cur prev; simp [blocksAux]
  | cons c rest ih =>
    intro cur prev
    rw [blocksAux]
    by_cases h : c.2 = prev.2 + 1
    · rw [if_pos h, ih]
      simp
    · rw [if_neg h]
      simp only [List.flatten_cons, ih]
      simp

/-- No emitted block is empty. -/
theorem blocksAux_ne_nil :
    ∀ (l : List (ℕ × ℕ)) (cur : List (ℕ × ℕ)) (prev : ℕ × ℕ), cur ≠ [] →
      ∀ B ∈ blocksAux cur prev l, B ≠ [] := by
  intro l
  induction l with
  | nil =>
    intro cur prev hcur B hB
    rw [blocksAux] at hB
    rcases List.mem_singleton.mp hB with rfl
    exact hcur
  | cons c rest ih =>
    intro cur prev hcur B hB
    rw [blocksAux] at hB
    split at hB
    · exact ih (cur ++ [c]) c (by simp) B hB
    · rcases List.mem_cons.mp hB with rfl | hB2
      · exact hcur
      · exact ih [c] c (by simp) B hB2

/-- Every emitted block is a consecutive-rank chain. -/
theorem blocksAux_consec :
    ∀ (l : List (ℕ × ℕ)) (cur : List (ℕ × ℕ)) (prev : ℕ × ℕ),
      cur.Chain' (fun a b => b.2 = a.2 + 1) → cur.getLast? = some prev →
      ∀ B ∈ blocksAux cur prev l, B.Chain' (fun a b => b.2 = a.2 + 1) := by
  intro l
  induction l with
  | nil =>
    intro cur prev hchain _ B hB
    rcases List.mem_singleton.mp hB with rfl
    exact hchain
  | cons c rest ih =>
    intro cur prev hchain hlast B hB
    rw [blocksAux] at hB
    split at hB
    · rename_i hc
      refine ih (cur ++ [c]) c ?_ ?_ B hB
      · rw [List.chain'_append]
        refine ⟨hchain, List.chain'_singleton c, ?_⟩
        intro x hx y hy
        rw [hlast] at hx
        rcases Option.mem_some_iff.mp hx with rfl
        rcases Option.mem_some_iff.mp (by simpa using hy) with rfl
        exact hc
      · simp
    · rcases List.mem_cons.mp hB with rfl | hB2
      · exact hchain
      · exact ih [c] c (List.chain'_singleton c) rfl B hB2

/-- The first emitted block extends `cur` to the right. -/
theorem blocksAux_head :
    ∀ (l : List (ℕ × ℕ)) (cur : List (ℕ × ℕ)) (prev : ℕ × ℕ),
      ∃ t rest2, blocksAux cur prev l = (cur ++ t) :: rest2 := by
  intro l
  induction l with
  | nil => intro cur prev; exact ⟨[], [], by simp [blocksAux]⟩
  | cons c rest ih =>
    intro cur prev
    rw [blocksAux]
    by_cases h : c.2 = prev.2 + 1
    · rw [if_pos h]
      obtain ⟨t, rest2, heq⟩ := ih (cur ++ [c]) c
      exact ⟨[c] ++ t, rest2, by rw [heq]; simp⟩
    · rw [if_neg h]
      exact ⟨[], blocksAux [c] c rest, by simp⟩

/-- Consecutive emitted blocks are separated by a rank gap of at least 2. -/
theorem blocksAux_gap :
    ∀ (l : List (ℕ × ℕ)) (cur : List (ℕ × ℕ)) (prev : ℕ × ℕ),
      (cur ++ l).Chain' (fun a b => a.2 < b.2) → cur ≠ [] → cur.getLast? = some prev →
      (blocksAux cur prev l).Chain' (fun B C => lsRank B + 2 ≤ hdRank C) := by
  intro l
  induction l with
  | nil =>
    intro cur prev _ _ _
    exact List.chain'_singleton cur
  | cons c rest ih =>
    intro cur prev hasc hcur hlast
    rw [blocksAux]
    by_cases h : c.2 = prev.2 + 1
    · rw [if_pos h]
      refine ih (cur ++ [c]) c ?_ (by simp) (by simp)
      rw [List.append_cons] at hasc
      exact hasc
    · rw [if_neg h]
      have hsplit := List.chain'_append.mp hasc
      have hrec : (blocksAux [c] c rest).Chain' (fun B C => lsRank B + 2 ≤ hdRank C) := by
        refine ih [c] c ?_ (by simp) rfl
        exact hsplit.2.1
      rw [List.chain'_cons']
      refine ⟨?_, hrec⟩
      intro y hy
      obtain ⟨t, rest2, heq⟩ := blocksAux_head rest [c] c
      rw [heq] at hy
      rcases Option.mem_some_iff.mp (by simpa using hy) with rfl
      have hlt : prev.2 < c.2 := by
        refine hsplit.2.2 prev (by rw [hlast]; rfl) c ?_
        simp
      have hls : lsRank cur = prev.2 := by
        unfold lsRank
        rw [hlast]
        rfl
      have hhd : hdRank (c :: t) = c.2 := rfl
      rw [hls, hhd]
      omega

/-- Facts about a non-empty consecutive chain: its head rank, last rank,
rank bounds, and which ranks it attains. -/
theorem consec_facts :
    ∀ (t : List (ℕ × ℕ)) (b : ℕ × ℕ),
      (b :: t).Chain' (fun a b => b.2 = a.2 + 1) →
      lsRank (b :: t) = b.2 + t.length ∧
      (∀ x ∈ b :: t, b.2 ≤ x.2 ∧ x.2 ≤ b.2 + t.length) ∧
      (∀ r, b.2 ≤ r → r ≤ b.2 + t.length → ∃ x ∈ b :: t, x.2 = r) := by
  intro t
  induction t with
  | nil =>
    intro b _
    refine ⟨rfl, ?_, ?_⟩
    · intro x hx
      rcases List.mem_singleton.mp hx with rfl
      omega
    · intro r h1 h2
      simp only [List.length_nil, Nat.add_zero] at h2
      exact ⟨b, List.mem_singleton.mpr rfl, by omega⟩
  | cons c t2 ih =>
    intro b hchain
    rw [List.chain'_cons] at hchain
    obtain ⟨hc, hchain2⟩ := hchain
    obtain ⟨ihls, ihbd, ihat⟩ := ih c hchain2
    refine ⟨?_, ?_, ?_⟩
    · unfold lsRank
      unfold lsRank at ihls
      rw [List.getLast?_cons_cons]
      simp only [List.length_cons]
      omega
    · intro x hx
      rcases List.mem_cons.mp hx with rfl | hx2
      · simp only [List.length_cons]
        omega
      · have := ihbd x hx2
        simp only [List.length_cons]
        omega
    · intro r h1 h2
      by_cases hr : r = b.2
      · exact ⟨b, List.mem_cons_self b _, hr.symm⟩
      · have h3 : c.2 ≤ r := by omega
        have h4 : r ≤ c.2 + t2.length := by
          simp only [List.length_cons] at h2
          omega
        obtain ⟨x, hx, hxr⟩ := ihat r h3 h4
        exact ⟨x, List.mem_cons_of_mem b hx, hxr⟩

/-- Strengthen a chain with a membership-wide fact on its elements. -/
theorem chain'_and_mem {α : Type} (R : α → α → Prop) (P : α → Prop) :
    ∀ l : List α, l.Chain' R → (∀ B ∈ l, P B) →
      l.Chain' (fun B C => P B ∧ P C ∧ R B C) := by
  intro l
  induction l with
  | nil => intro _ _; exact List.chain'_nil
  | cons a l ih =>
    intro hchain hP
    cases l with
    | nil => exact List.chain'_singleton a
    | cons b l2 =>
      rw [List.chain'_cons] at hchain ⊢
      refine ⟨⟨hP a (List.mem_cons_self _ _),
        hP b (List.mem_cons_of_mem _ (List.mem_cons_self _ _)), hchain.1⟩, ?_⟩
      exact ih hchain.2 (fun B hB => hP B (List.mem_cons_of_mem _ hB))

/-- The full behaviour of the phase-2 scan on a strictly rank-ascending
suit bucket: every emitted sequence has length ≥ 3, is a consecutive-rank
chain, consists of bucket cards, is maximal (no bucket card extends it on
either side), and covers its whole rank interval. -/
theorem scanSequences_spec (cards : List (ℕ × ℕ))
    (hasc : cards.Pairwise (fun a b => a.2 < b.2)) :
    ∀ B ∈ scanSequences cards,
      3 ≤ B.length ∧
      B.Chain' (fun a b => b.2 = a.2 + 1) ∧
      (∀ x ∈ B, x ∈ cards) ∧
      (∀ y ∈ cards, y.2 + 1 ≠ hdRank B ∧ y.2 ≠ lsRank B + 1) ∧
      (∀ y ∈ cards, hdRank B ≤ y.2 → y.2 ≤ lsRank B → y ∈ B) := by
  cases cards with
  | nil => intro B hB; exact absurd hB (by simp [scanSequences])
  | cons c0 rest =>
    intro B hB
    rw [show scanSequences (c0 :: rest) = scanAux [c0] c0 rest from rfl,
      scanAux_eq_filter] at hB
    obtain ⟨hBin, hBlen⟩ := List.mem_filter.mp hB
    have hBlen3 : 3 ≤ B.length := by simpa using hBlen
    have hflat : (blocksAux [c0] c0 rest).flatten = c0 :: rest := blocksAux_flatten rest [c0] c0
    have hne : ∀ B2 ∈ blocksAux [c0] c0 rest, B2 ≠ [] :=
      blocksAux_ne_nil rest [c0] c0 (by simp)
    have hcons : ∀ B2 ∈ blocksAux [c0] c0 rest, B2.Chain' (fun a b => b.2 = a.2 + 1) :=
      blocksAux_consec rest [c0] c0 (List.chain'_singleton c0) rfl
    have hgap : (blocksAux [c0] c0 rest).Chain' (fun B2 C => lsRank B2 + 2 ≤ hdRank C) :=
      blocksAux_gap rest [c0] c0 (by simpa using hasc.chain') (by simp) rfl
    have hP : ∀ B2 ∈ blocksAux [c0] c0 rest, hdRank B2 ≤ lsRank B2 := by
      intro B2 hB2
      obtain ⟨b, t, rfl⟩ := List.exists_cons_of_ne_nil (hne B2 hB2)
      obtain ⟨hls, _, _⟩ := consec_facts t b (hcons _ hB2)
      rw [hls]
      show b.2 ≤ b.2 + t.length
      omega
    have hchain3 : (blocksAux [c0] c0 rest).Chain'
        (fun B2 C => (hdRank B2 ≤ lsRank B2) ∧ (hdRank C ≤ lsRank C) ∧
          lsRank B2 + 2 ≤ hdRank C) :=
      chain'_and_mem _ _ _ hgap hP
    have htrans : Transitive (fun B2 C : List (ℕ × ℕ) =>
        (hdRank B2 ≤ lsRank B2) ∧ (hdRank C ≤ lsRank C) ∧ lsRank B2 + 2 ≤ hdRank C) := by
      intro X Y Z h1 h2
      exact ⟨h1.1, h2.2.1, by omega⟩
    have hpair : (blocksAux [c0] c0 rest).Pairwise
        (fun B2 C => (hdRank B2 ≤ lsRank B2) ∧ (hdRank C ≤ lsRank C) ∧
          lsRank B2 + 2 ≤ hdRank C) := by
      haveI : IsTrans (List (ℕ × ℕ)) (fun B2 C => (hdRank B2 ≤ lsRank B2) ∧
          (hdRank C ≤ lsRank C) ∧ lsRank B2 + 2 ≤ hdRank C) :=
        ⟨fun _ _ _ ha hb => htrans ha hb⟩
      exact List.chain'_iff_pairwise.mp hchain3
    obtain ⟨b, t, rfl⟩ := List.exists_cons_of_ne_nil (hne B hBin)
    obtain ⟨hls, hbd, hat⟩ := consec_facts t b (hcons _ hBin)
    have hbmem : ∀ x ∈ b :: t, x ∈ c0 :: rest := by
      intro x hx
      rw [← hflat]
      exact List.mem_flatten.mpr ⟨b :: t, hBin, hx⟩
    refine ⟨hBlen3, hcons _ hBin, hbmem, ?_⟩
    have hy2 : ∀ y ∈ c0 :: rest, y ∈ b :: t ∨
        (y.2 + 2 ≤ hdRank (b :: t) ∨ lsRank (b :: t) + 2 ≤ y.2) := by
      intro y hy
      rw [← hflat] at hy
      obtain ⟨B2, hB2, hyB2⟩ := List.mem_flatten.mp hy
      by_cases hBB : B2 = b :: t
      · exact Or.inl (hBB ▸ hyB2)
      · have hrel := List.Pairwise.forall
          (by
            intro X Y h
            rcases h with h | h
            · exact Or.inr h
            · exact Or.inl h)
          (hpair.imp (fun h => Or.inl h)) hB2 hBin hBB
        obtain ⟨b2, t2, rfl⟩ := List.exists_cons_of_ne_nil (hne B2 hB2)
        obtain ⟨hls2, hbd2, _⟩ := consec_facts t2 b2 (hcons _ hB2)
        have hybd := hbd2 y hyB2
        rcases hrel with ⟨_, _, hgap2⟩ | ⟨_, _, hgap2⟩
        · refine Or.inr (Or.inl ?_)
          rw [hls2] at hgap2
          omega
        · refine Or.inr (Or.inr ?_)
          have : hdRank (b2 :: t2) = b2.2 := rfl
          omega
    constructor
    · intro y hy
      rcases hy2 y hy with hmem | hout
      · have := hbd y hmem
        have hhd : hdRank (b :: t) = b.2 := rfl
        rw [hls] at *
        constructor <;> omega
      · have hhd : hdRank (b :: t) = b.2 := rfl
        rw [hls, hhd] at hout
        rw [hls]
        constructor <;> omega
    · intro y hy hge hle
      rcases hy2 y hy with hmem | hout
      · exact hmem
      · exfalso
        have hhd : hdRank (b :: t) = b.2 := rfl
        rw [hhd] at hge hout
        rw [hls] at hle hout
        omega

/-- Destructing a phase-2 meld: it is the embedding of one scanned sequence
of one suit bucket. -/
theorem phase2Melds_dest (parsed_hand : List Card) (m : List (ℕ × Card))
    (hm : m ∈ phase2Melds parsed_hand) :
    ∃ s seq, seq ∈ scanSequences (List.insertionSort rankOrdRel (suit_group parsed_hand s)) ∧
      m = seq.map (fun p => (p.1, (p.2, s))) := by
  unfold phase2Melds at hm
  rw [List.mem_flatMap] at hm
  obtain ⟨s, _, hmem⟩ := hm
  dsimp only at hmem
  split at hmem
  · exact absurd hmem (List.not_mem_nil m)
  · obtain ⟨seq, hseq, heq⟩ := List.mem_map.mp hmem
    exact ⟨s, seq, hseq, heq.symm⟩

/-- For a duplicate-free hand, each rank-sorted suit bucket is strictly
ascending in rank. -/
theorem suit_group_sorted_strict (parsed_hand : List Card) (hnodup : parsed_hand.Nodup)
    (s : String) :
    (List.insertionSort rankOrdRel (suit_group parsed_hand s)).Pairwise
      (fun a b => a.2 < b.2) := by
  have hle : (List.insertionSort rankOrdRel (suit_group parsed_hand s)).Pairwise rankOrdRel :=
    List.sorted_insertionSort rankOrdRel _
  have hne : (suit_group parsed_hand s).Pairwise (fun a b => a.2 ≠ b.2) := by
    have h1 := sorted_hand_pairwise_card parsed_hand hnodup
    have h2 : ((availAfterSets parsed_hand).filter (fun e => e.2.2 == s)).Pairwise
        (fun a b => a.2 ≠ b.2) :=
      List.Pairwise.sublist ((List.filter_sublist _).trans (List.filter_sublist _)) h1
    unfold suit_group
    rw [List.pairwise_map]
    refine h2.imp_of_mem ?_
    intro a b ha hb hne heq
    have hsa : a.2.2 = s := by simpa using (List.mem_filter.mp ha).2
    have hsb : b.2.2 = s := by simpa using (List.mem_filter.mp hb).2
    apply hne
    obtain ⟨ia, ra, sa⟩ := a
    obtain ⟨ib, rb, sb⟩ := b
    simp only at hsa hsb heq ⊢
    rw [hsa, hsb, heq]
  have hne2 : (List.insertionSort rankOrdRel (suit_group parsed_hand s)).Pairwise
      (fun a b => a.2 ≠ b.2) :=
    ((List.perm_insertionSort rankOrdRel _).pairwise_iff
      (fun h heq => h heq.symm)).mpr hne
  exact (hle.and hne2).imp (fun h => lt_of_le_of_ne h.1 h.2)

/-- Head rank of an embedded sequence. -/
theorem meldHdRank_map (seq : List (ℕ × ℕ)) (s : String) :
    meldHdRank (seq.map (fun p => (p.1, (p.2, s)))) = hdRank seq := by
  unfold meldHdRank hdRank
  rw [List.head?_map, Option.map_map]
  rfl

/-- Last rank of an embedded sequence. -/
theorem meldLsRank_map (seq : List (ℕ × ℕ)) (s : String) :
    meldLsRank (seq.map (fun p => (p.1, (p.2, s)))) = lsRank seq := by
  unfold meldLsRank lsRank
  rw [List.getLast?_map, Option.map_map]
  rfl

/-- C3 (amended): for every duplicate-free hand, each Run meld emitted in
phase 2 is, within one suit, a maximal stretch of strictly consecutive ranks
(gap exactly 1) among the cards left unmatched by phase 1 — no unmatched
card of that suit extends it on either side, and every unmatched card of
that suit whose rank falls inside the stretch belongs to the meld, so the
entire stretch is covered by the single meld.  The Ace is only ever
rank-low: a run contains both an Ace (rank 1) and a King (rank 13) only if
it attains every rank 1..13 (no wrap past King). -/
theorem phase2_runs_maximal (parsed_hand : List Card) (hnodup : parsed_hand.Nodup) :
    ∀ m ∈ phase2Melds parsed_hand, ∃ s : String,
      3 ≤ m.length ∧
      (∀ p ∈ m, p.2.2 = s) ∧
      m.Chain' (fun p q => q.2.1 = p.2.1 + 1) ∧
      (∀ p ∈ m, p.1 ∉ matched1 parsed_hand ∧ (p.1, p.2) ∈ parsed_hand.enum) ∧
      (∀ e ∈ parsed_hand.enum, e.1 ∉ matched1 parsed_hand → e.2.2 = s →
        (e.2.1 + 1 ≠ meldHdRank m ∧ e.2.1 ≠ meldLsRank m + 1) ∧
        (meldHdRank m ≤ e.2.1 → e.2.1 ≤ meldLsRank m → (e.1, e.2) ∈ m)) ∧
      ((1 : ℕ) ∈ m.map (fun p => p.2.1) → (13 : ℕ) ∈ m.map (fun p => p.2.1) →
        ∀ r, 1 ≤ r → r ≤ 13 → r ∈ m.map (fun p => p.2.1)) := by
  intro m hm
  obtain ⟨s, seq, hseq, rfl⟩ := phase2Melds_dest parsed_hand m hm
  have hasc := suit_group_sorted_strict parsed_hand hnodup s
  obtain ⟨hlen, hchain, hsub, hmax, hcov⟩ :=
    scanSequences_spec (List.insertionSort rankOrdRel (suit_group parsed_hand s)) hasc seq hseq
  refine ⟨s, ?_, ?_, ?_, ?_, ?_, ?_⟩
  · rw [List.length_map]
    exact hlen
  · intro p hp
    obtain ⟨x, _, rfl⟩ := List.mem_map.mp hp
    rfl
  · rw [List.chain'_map]
    exact hchain
  · intro p hp
    obtain ⟨x, hx, rfl⟩ := List.mem_map.mp hp
    obtain ⟨i, rk⟩ := x
    have hxg : (i, rk) ∈ suit_group parsed_hand s :=
      (List.perm_insertionSort rankOrdRel _).mem_iff.mp (hsub (i, rk) hx)
    rw [mem_suit_group] at hxg
    exact ⟨hxg.2, (mem_sorted_hand parsed_hand _).mp hxg.1⟩
  · intro e he hunm hsuit
    obtain ⟨i, r2, s2⟩ := e
    simp only at hsuit
    subst hsuit
    have heg : (i, r2) ∈ suit_group parsed_hand s2 := by
      rw [mem_suit_group]
      exact ⟨(mem_sorted_hand parsed_hand _).mpr he, hunm⟩
    have hyc : (i, r2) ∈ List.insertionSort rankOrdRel (suit_group parsed_hand s2) :=
      (List.perm_insertionSort rankOrdRel _).mem_iff.mpr heg
    have h1 := hmax (i, r2) hyc
    have h2 := hcov (i, r2) hyc
    rw [meldHdRank_map, meldLsRank_map]
    refine ⟨h1, ?_⟩
    intro hge hle
    exact List.mem_map_of_mem (fun p : ℕ × ℕ => (p.1, (p.2, s2))) (h2 hge hle)
  · intro h1m h13m r hr1 hr13
    have hmapeq : ((seq.map (fun p => (p.1, (p.2, s)))).map (fun p => p.2.1))
        = seq.map (fun x => x.2) := by
      rw [List.map_map]
      rfl
    rw [hmapeq] at h1m h13m ⊢
    obtain ⟨b, t, rfl⟩ : ∃ b t, seq = b :: t := by
      cases seq with
      | nil => exact absurd hlen (by simp)
      | cons b t => exact ⟨b, t, rfl⟩
    obtain ⟨hls, hbd, hat⟩ := consec_facts t b hchain
    obtain ⟨x1, hx1, hx1r⟩ := List.mem_map.mp h1m
    obtain ⟨x13, hx13, hx13r⟩ := List.mem_map.mp h13m
    have hb1 := hbd x1 hx1
    have hb13 := hbd x13 hx13
    obtain ⟨x, hx, hxr⟩ := hat r (by omega) (by omega)
    exact List.mem_map.mpr ⟨x, hx, hxr⟩

/-- Witness for C3 at the concrete hand 3-4-5 of hearts. -/
theorem phase2_runs_maximal_witness :
    ([(3, "hearts"), (4, "hearts"), (5, "hearts")] : List Card).Nodup ∧
    ∀ m ∈ phase2Melds [(3, "hearts"), (4, "hearts"), (5, "hearts")], ∃ s : String,
      3 ≤ m.length ∧
      (∀ p ∈ m, p.2.2 = s) ∧
      m.Chain' (fun p q => q.2.1 = p.2.1 + 1) ∧
      (∀ p ∈ m, p.1 ∉ matched1 [(3, "hearts"), (4, "hearts"), (5, "hearts")] ∧
        (p.1, p.2) ∈ ([(3, "hearts"), (4, "hearts"), (5, "hearts")] : List Card).enum) ∧
      (∀ e ∈ ([(3, "hearts"), (4, "hearts"), (5, "hearts")] : List Card).enum,
        e.1 ∉ matched1 [(3, "hearts"), (4, "hearts"), (5, "hearts")] → e.2.2 = s →
        (e.2.1 + 1 ≠ meldHdRank m ∧ e.2.1 ≠ meldLsRank m + 1) ∧
        (meldHdRank m ≤ e.2.1 → e.2.1 ≤ meldLsRank m → (e.1, e.2) ∈ m)) ∧
      ((1 : ℕ) ∈ m.map (fun p => p.2.1) → (13 : ℕ) ∈ m.map (fun p => p.2.1) →
        ∀ r, 1 ≤ r → r ≤ 13 → r ∈ m.map (fun p => p.2.1)) :=
  ⟨by decide, phase2_runs_maximal [(3, "hearts"), (4, "hearts"), (5, "hearts")] (by decide)⟩

/-- Counterexample to C3 as frozen: the claim says no Run meld ever
contains both a King and an Ace, but the duplicate-free 13-card hand
A..K of hearts produces a single phase-2 run containing both rank 13
and rank 1 (the Ace rank-low, with no wrap). -/
theorem phase2_run_king_ace_counterexample :
    (((List.range 13).map (fun i => (i + 1, "hearts"))) : List Card).Nodup ∧
    ∃ m ∈ phase2Melds ((List.range 13).map (fun i => (i + 1, "hearts"))),
      (∃ p ∈ m, p.2.1 = 13) ∧ (∃ p ∈ m, p.2.1 = 1) := by decide

/-- The phase-2 scan entry point as a filter of the unfiltered blocks. -/
theorem scanSequences_eq_filter (cards : List (ℕ × ℕ)) :
    scanSequences cards = (chainBlocks cards).filter (fun b => decide (3 ≤ b.length)) := by
  cases cards with
  | nil => rfl
  | cons c rest =>
    rw [show scanSequences (c :: rest) = scanAux [c] c rest from rfl,
      show chainBlocks (c :: rest) = blocksAux [c] c rest from rfl]
    exact scanAux_eq_filter rest [c] c

/-- The unfiltered blocks of the entry point concatenate to the input. -/
theorem chainBlocks_flatten (cards : List (ℕ × ℕ)) :
    (chainBlocks cards).flatten = cards := by
  cases cards with
  | nil => rfl
  | cons c rest =>
    rw [show chainBlocks (c :: rest) = blocksAux [c] c rest from rfl]
    exact blocksAux_flatten rest [c] c

/-- Scanned sequences consist of bucket cards (no hypotheses needed). -/
theorem scanSequences_subset (cards : List (ℕ × ℕ)) (B : List (ℕ × ℕ))
    (hB : B ∈ scanSequences cards) : ∀ x ∈ B, x ∈ cards := by
  intro x hx
  rw [scanSequences_eq_filter] at hB
  rw [← chainBlocks_flatten cards]
  exact List.mem_flatten.mpr ⟨B, List.mem_of_mem_filter hB, hx⟩

/-- Suit buckets never repeat a hand index. -/
theorem suit_group_pairwise_idx (parsed_hand : List Card) (s : String) :
    (suit_group parsed_hand s).Pairwise (fun a b => a.1 ≠ b.1) := by
  unfold suit_group availAfterSets
  rw [List.pairwise_map]
  exact List.Pairwise.sublist ((List.filter_sublist _).trans (List.filter_sublist _))
    (sorted_hand_pairwise_idx parsed_hand)

/-- Distinct scanned sequences of one bucket share no hand index. -/
theorem scanSequences_pairwise_disj (cards : List (ℕ × ℕ))
    (h : cards.Pairwise (fun a b => a.1 ≠ b.1)) :
    (scanSequences cards).Pairwise (fun B1 B2 => ∀ x ∈ B1, ∀ y ∈ B2, x.1 ≠ y.1) := by
  have h2 : (chainBlocks cards).flatten.Pairwise (fun a b => a.1 ≠ b.1) := by
    rw [chainBlocks_flatten]
    exact h
  rw [List.pairwise_flatten] at h2
  rw [scanSequences_eq_filter]
  exact List.Pairwise.sublist (List.filter_sublist _) h2.2

/-- Every entry of a phase-2 meld has the meld's suit, is unmatched after
phase 1, and names a real entry of `sorted_hand` (no hypotheses needed). -/
theorem phase2Melds_entry (parsed_hand : List Card) (m : List (ℕ × Card))
    (hm : m ∈ phase2Melds parsed_hand) :
    ∃ s, ∀ p ∈ m, p.2.2 = s ∧ p.1 ∉ matched1 parsed_hand ∧
      (p.1, p.2) ∈ sorted_hand parsed_hand := by
  obtain ⟨s, seq, hseq, rfl⟩ := phase2Melds_dest parsed_hand m hm
  refine ⟨s, ?_⟩
  intro p hp
  obtain ⟨x, hx, rfl⟩ := List.mem_map.mp hp
  obtain ⟨i, rk⟩ := x
  have hxc : (i, rk) ∈ List.insertionSort rankOrdRel (suit_group parsed_hand s) :=
    scanSequences_subset _ seq hseq (i, rk) hx
  have hxg : (i, rk) ∈ suit_group parsed_hand s :=
    (List.perm_insertionSort rankOrdRel _).mem_iff.mp hxc
  rw [mem_suit_group] at hxg
  exact ⟨rfl, hxg.2, hxg.1⟩

/-- Distinct phase-1 melds share no hand index. -/
theorem setMelds_pairwise_disj (parsed_hand : List Card) :
    (setMeldsIndexed parsed_hand).Pairwise
      (fun m1 m2 => ∀ i c1 c2, (i, c1) ∈ m1 → (i, c2) ∈ m2 → False) := by
  unfold setMeldsIndexed
  rw [List.pairwise_filterMap]
  have hnd : (rank_groups_order (sorted_hand parsed_hand)).Pairwise (fun a b => a ≠ b) :=
    nodup_firstOccur _
  refine hnd.imp_of_mem ?_
  intro r1 r2 _ _ hne m1 hm1 m2 hm2 i c1 c2 h1 h2
  rw [Option.mem_def] at hm1 hm2
  dsimp only at hm1 hm2
  have hsound : ∀ (r : ℕ) (mm : List (ℕ × Card)),
      (if 3 ≤ (rank_group (sorted_hand parsed_hand) r).length then
        if 3 ≤ ((rank_group (sorted_hand parsed_hand) r).map Prod.snd).toFinset.card then
          if 3 ≤ (takeSetCards r (rank_group (sorted_hand parsed_hand) r) [] []).length then
            some (takeSetCards r (rank_group (sorted_hand parsed_hand) r) [] [])
          else none
        else none
      else none) = some mm →
      ∀ p ∈ mm, p.2.1 = r ∧ (p.1, p.2) ∈ sorted_hand parsed_hand := by
    intro r mm hmm p hp
    split at hmm
    · split at hmm
      · split at hmm
        · rcases Option.some_injective _ hmm with rfl
          rcases takeSetCards_mem r _ [] [] p hp with hacc | ⟨s2, hs2, hps⟩
          · exact absurd hacc (List.not_mem_nil p)
          · rw [mem_rank_group] at hs2
            refine ⟨by rw [hps], ?_⟩
            have : (p.1, p.2) = (p.1, (r, s2)) := by rw [hps]
            rw [this]
            exact hs2
        · exact absurd hmm (by simp)
      · exact absurd hmm (by simp)
    · exact absurd hmm (by simp)
  have hs1 := (hsound r1 m1 hm1 (i, c1) h1)
  have hs2 := (hsound r2 m2 hm2 (i, c2) h2)
  apply hne
  have hc : c1 = c2 := enum_idx_det parsed_hand i c1 c2
    ((mem_sorted_hand _ _).mp hs1.2) ((mem_sorted_hand _ _).mp hs2.2)
  rw [← hs1.1, ← hs2.1, hc]

/-- Entries of one suit's phase-2 meld list: suit-tagged, unmatched, real. -/
theorem perSuit_entry (parsed_hand : List Card) (s : String) (m : List (ℕ × Card))
    (hm : m ∈ (if (suit_group parsed_hand s).length < 3 then ([] : List (List (ℕ × Card)))
      else (scanSequences (List.insertionSort rankOrdRel (suit_group parsed_hand s))).map
        (fun seq => seq.map (fun p => (p.1, (p.2, s)))))) :
    ∀ p ∈ m, p.2.2 = s ∧ p.1 ∉ matched1 parsed_hand ∧
      (p.1, p.2) ∈ sorted_hand parsed_hand := by
  split at hm
  · exact absurd hm (List.not_mem_nil m)
  · obtain ⟨seq, hseq, rfl⟩ := List.mem_map.mp hm
    intro p hp
    obtain ⟨x, hx, rfl⟩ := List.mem_map.mp hp
    obtain ⟨i, rk⟩ := x
    have hxg : (i, rk) ∈ suit_group parsed_hand s :=
      (List.perm_insertionSort rankOrdRel _).mem_iff.mp
        (scanSequences_subset _ seq hseq (i, rk) hx)
    rw [mem_suit_group] at hxg
    exact ⟨rfl, hxg.2, hxg.1⟩

/-- Distinct phase-2 melds share no hand index. -/
theorem phase2_pairwise_disj (parsed_hand : List Card) :
    (phase2Melds parsed_hand).Pairwise
      (fun m1 m2 => ∀ i c1 c2, (i, c1) ∈ m1 → (i, c2) ∈ m2 → False) := by
  unfold phase2Melds
  rw [List.flatMap_def, List.pairwise_flatten]
  constructor
  · intro l hl
    obtain ⟨s, _, rfl⟩ := List.mem_map.mp hl
    dsimp only
    split
    · exact List.Pairwise.nil
    · rw [List.pairwise_map]
      have hidx : (List.insertionSort rankOrdRel (suit_group parsed_hand s)).Pairwise
          (fun a b => a.1 ≠ b.1) :=
        ((List.perm_insertionSort rankOrdRel _).pairwise_iff
          (fun h heq => h heq.symm)).mpr (suit_group_pairwise_idx parsed_hand s)
      refine (scanSequences_pairwise_disj _ hidx).imp ?_
      intro B1 B2 hd i c1 c2 h1 h2
      obtain ⟨x, hx, hxe⟩ := List.mem_map.mp h1
      obtain ⟨y, hy, hye⟩ := List.mem_map.mp h2
      exact hd x hx y hy
        ((congrArg Prod.fst hxe).trans (congrArg Prod.fst hye).symm)
  · rw [List.pairwise_map]
    have hnd : (suit_groups_order parsed_hand).Pairwise (fun a b => a ≠ b) :=
      nodup_firstOccur _
    refine hnd.imp_of_mem ?_
    intro s1 s2 _ _ hne m1 hm1 m2 hm2 i c1 c2 h1 h2
    have he1 := perSuit_entry parsed_hand s1 m1 hm1 (i, c1) h1
    have he2 := perSuit_entry parsed_hand s2 m2 hm2 (i, c2) h2
    apply hne
    have hc : c1 = c2 := enum_idx_det parsed_hand i c1 c2
      ((mem_sorted_hand _ _).mp he1.2.2) ((mem_sorted_hand _ _).mp he2.2.2)
    rw [← he1.1, ← he2.1, hc]

/-- Every stored deadwood value is at least 1. -/
theorem DEADWOOD_VALUES_pos : ∀ p ∈ DEADWOOD_VALUES, 1 ≤ p.2 := by decide

/-- Every deadwood lookup yields at least 1. -/
theorem deadwood_lookup_pos (k : String) : 1 ≤ lookupD DEADWOOD_VALUES k 10 := by
  rcases lookupD_cases DEADWOOD_VALUES k 10 with h | ⟨p, hp, hv⟩
  · omega
  · have := DEADWOOD_VALUES_pos p hp
    omega

/-- C4: the meld finder's output is a partition certificate.  The returned
matched index set contains exactly the hand indices covered by the emitted
(indexed) melds; distinct melds never share an index; the returned meld
list is the index-erased projection of the indexed melds; and deadwood is
non-negative, vanishing exactly when every parseable card's index is
matched. -/
theorem find_melds_partition (hand : List String)
    (_hnodup : (hand.filterMap parse_card).Nodup) :
    (∀ i : ℕ, i ∈ (find_melds (hand.filterMap parse_card)).1 ↔
      ∃ m ∈ setMeldsIndexed (hand.filterMap parse_card)
          ++ phase2Melds (hand.filterMap parse_card), ∃ c : Card, (i, c) ∈ m) ∧
    (setMeldsIndexed (hand.filterMap parse_card)
        ++ phase2Melds (hand.filterMap parse_card)).Pairwise
      (fun m1 m2 => ∀ i c1 c2, (i, c1) ∈ m1 → (i, c2) ∈ m2 → False) ∧
    (find_melds (hand.filterMap parse_card)).2
      = (setMeldsIndexed (hand.filterMap parse_card)
          ++ phase2Melds (hand.filterMap parse_card)).map (fun m => m.map Prod.snd) ∧
    0 ≤ calculate_deadwood hand ∧
    (calculate_deadwood hand = 0 ↔
      ∀ e ∈ (hand.filterMap parse_card).enum,
        e.1 ∈ (find_melds (hand.filterMap parse_card)).1) := by
  refine ⟨?_, ?_, ?_, calculate_deadwood_nonneg hand, ?_⟩
  · intro i
    unfold find_melds
    by_cases h : hand.filterMap parse_card = []
    · rw [if_pos h, h]
      simp [show setMeldsIndexed [] = [] from rfl, show phase2Melds [] = [] from rfl]
    · rw [if_neg h]
      exact mem_meldIndices _ i
  · rw [List.pairwise_append]
    refine ⟨setMelds_pairwise_disj _, phase2_pairwise_disj _, ?_⟩
    intro m1 hm1 m2 hm2 i c1 c2 h1 h2
    have hmatched : i ∈ matched1 (hand.filterMap parse_card) :=
      (mem_matched1 _ i).mpr ⟨m1, hm1, c1, h1⟩
    obtain ⟨s, hs⟩ := phase2Melds_entry _ m2 hm2
    exact (hs (i, c2) h2).2.1 hmatched
  · unfold find_melds
    by_cases h : hand.filterMap parse_card = []
    · rw [if_pos h, h]
      simp [show setMeldsIndexed [] = [] from rfl, show phase2Melds [] = [] from rfl]
    · rw [if_neg h]
  · rw [calculate_deadwood_eq_cast]
    rw [show ((deadwoodNatSum hand : ℚ) = 0 ↔ deadwoodNatSum hand = 0) by exact_mod_cast Iff.rfl]
    unfold deadwoodNatSum
    dsimp only
    rw [List.sum_eq_zero_iff]
    constructor
    · intro hall e he
      by_contra hnm
      have hmem : e ∈ (hand.filterMap parse_card).enum.filter
          (fun e => decide (e.1 ∉ (find_melds (hand.filterMap parse_card)).1)) :=
        List.mem_filter.mpr ⟨he, by simpa using hnm⟩
      have hv := hall _ (List.mem_map_of_mem
        (fun e : ℕ × Card => lookupD DEADWOOD_VALUES (RANKS.getD (e.2.1 - 1) "") 10) hmem)
      dsimp only at hv
      have := deadwood_lookup_pos (RANKS.getD (e.2.1 - 1) "")
      omega
    · intro hall v hv
      obtain ⟨e, he, rfl⟩ := List.mem_map.mp hv
      obtain ⟨hee, hef⟩ := List.mem_filter.mp he
      exact absurd (hall e hee) (by simpa using hef)

/-- Witness for C4 at the concrete hand K-K-K plus a 2 (one set meld, one
unmatched card). -/
theorem find_melds_partition_witness :
    ((["K-hearts", "K-diamonds", "K-clubs", "2-spades"] : List String).filterMap
        parse_card).Nodup ∧
    ((∀ i : ℕ, i ∈ (find_melds ((["K-hearts", "K-diamonds", "K-clubs", "2-spades"] :
          List String).filterMap parse_card)).1 ↔
      ∃ m ∈ setMeldsIndexed ((["K-hearts", "K-diamonds", "K-clubs", "2-spades"] :
            List String).filterMap parse_card)
          ++ phase2Melds ((["K-hearts", "K-diamonds", "K-clubs", "2-spades"] :
            List String).filterMap parse_card), ∃ c : Card, (i, c) ∈ m) ∧
    (setMeldsIndexed ((["K-hearts", "K-diamonds", "K-clubs", "2-spades"] :
          List String).filterMap parse_card)
        ++ phase2Melds ((["K-hearts", "K-diamonds", "K-clubs", "2-spades"] :
          List String).filterMap parse_card)).Pairwise
      (fun m1 m2 => ∀ i c1 c2, (i, c1) ∈ m1 → (i, c2) ∈ m2 → False) ∧
    (find_melds ((["K-hearts", "K-diamonds", "K-clubs", "2-spades"] :
        List String).filterMap parse_card)).2
      = (setMeldsIndexed ((["K-hearts", "K-diamonds", "K-clubs", "2-spades"] :
            List String).filterMap parse_card)
          ++ phase2Melds ((["K-hearts", "K-diamonds", "K-clubs", "2-spades"] :
            List String).filterMap parse_card)).map (fun m => m.map Prod.snd) ∧
    0 ≤ calculate_deadwood ["K-hearts", "K-diamonds", "K-clubs", "2-spades"] ∧
    (calculate_deadwood ["K-hearts", "K-diamonds", "K-clubs", "2-spades"] = 0 ↔
      ∀ e ∈ ((["K-hearts", "K-diamonds", "K-clubs", "2-spades"] :
          List String).filterMap parse_card).enum,
        e.1 ∈ (find_melds ((["K-hearts", "K-diamonds", "K-clubs", "2-spades"] :
          List String).filterMap parse_card)).1)) :=
  ⟨by decide,
    find_melds_partition ["K-hearts", "K-diamonds", "K-clubs", "2-spades"] (by decide)⟩

/-- On a bucket with pairwise-distinct suits, the suit-walk of phase 1 never
skips, so it simply takes cards until 4 are collected. -/
theorem takeSetCards_take (r : ℕ) :
    ∀ (cards : List (ℕ × String)) (used : List String) (acc : List (ℕ × Card)),
      acc.length < 4 →
      (∀ q ∈ cards, q.2 ∉ used) →
      cards.Pairwise (fun a b => a.2 ≠ b.2) →
      takeSetCards r cards used acc
        = acc ++ (cards.take (4 - acc.length)).map (fun q => (q.1, (r, q.2))) := by
  intro cards
  induction cards with
  | nil =>
    intro used acc _ _ _
    simp [takeSetCards]
  | cons c rest ih =>
    intro used acc hlt hdisj hpair
    obtain ⟨idx, s⟩ := c
    rw [takeSetCards]
    rw [if_neg (hdisj (idx, s) (List.mem_cons_self _ _))]
    dsimp only
    by_cases h4 : 4 ≤ (acc ++ [(idx, (r, s))]).length
    · rw [if_pos h4]
      have hlen : acc.length = 3 := by
        simp only [List.length_append, List.length_singleton] at h4
        omega
      rw [show 4 - acc.length = 1 from by omega]
      rw [List.take_succ_cons, List.take_zero]
      simp
    · rw [if_neg h4]
      have hlt2 : (acc ++ [(idx, (r, s))]).length < 4 := by omega
      have hdisj2 : ∀ q ∈ rest, q.2 ∉ s :: used := by
        intro q hq
        simp only [List.mem_cons, not_or]
        refine ⟨?_, hdisj q (List.mem_cons_of_mem _ hq)⟩
        have := List.rel_of_pairwise_cons hpair hq
        exact fun hqs => this hqs.symm
      rw [ih (s :: used) (acc ++ [(idx, (r, s))]) hlt2 hdisj2 (List.Pairwise.of_cons hpair)]
      rw [show 4 - acc.length = (4 - (acc ++ [(idx, (r, s))]).length) + 1 from by
        simp only [List.length_append, List.length_singleton]
        omega]
      rw [List.take_succ_cons]
      simp

/-- Within one rank bucket the suits appear in Python-string order (the
bucket inherits the `sorted_hand` order, whose key at a fixed rank is the
suit string). -/
theorem rank_group_pairwise_suit_le (parsed_hand : List Card) (r : ℕ) :
    (rank_group (sorted_hand parsed_hand) r).Pairwise (fun a b => pyStrLe a.2 b.2) := by
  unfold rank_group
  rw [List.pairwise_map]
  have h1 : ((sorted_hand parsed_hand).filter (fun e => e.2.1 == r)).Pairwise sortKeyRel :=
    List.Pairwise.sublist (List.filter_sublist _) (sorted_hand_pairwise parsed_hand)
  refine h1.imp_of_mem ?_
  intro a b ha hb hab
  have hra : a.2.1 = r := by simpa using (List.mem_filter.mp ha).2
  have hrb : b.2.1 = r := by simpa using (List.mem_filter.mp hb).2
  rcases hab with h | ⟨_, h⟩
  · omega
  · exact h

/-- For duplicate-free hands, a rank bucket never repeats a suit. -/
theorem rank_group_pairwise_suit_ne (parsed_hand : List Card) (hnodup : parsed_hand.Nodup)
    (r : ℕ) :
    (rank_group (sorted_hand parsed_hand) r).Pairwise (fun a b => a.2 ≠ b.2) := by
  unfold rank_group
  rw [List.pairwise_map]
  have h1 : ((sorted_hand parsed_hand).filter (fun e => e.2.1 == r)).Pairwise
      (fun a b => a.2 ≠ b.2) :=
    List.Pairwise.sublist (List.filter_sublist _) (sorted_hand_pairwise_card parsed_hand hnodup)
  refine h1.imp_of_mem ?_
  intro a b ha hb hab heq
  have hra : a.2.1 = r := by simpa using (List.mem_filter.mp ha).2
  have hrb : b.2.1 = r := by simpa using (List.mem_filter.mp hb).2
  apply hab
  obtain ⟨ia, ra, sa⟩ := a
  obtain ⟨ib, rb, sb⟩ := b
  simp only at hra hrb heq ⊢
  rw [hra, hrb, heq]

/-- C8 (amended): phase 1 walks each qualifying rank bucket in the order
`sorted_hand` imposes — ascending Python-string order of the suit name
(clubs < diamonds < hearts < spades), not the declared `SUITS` order —
taking one card per suit until the bucket is exhausted or 4 cards are
collected.  Hence each emitted Set meld has 3 or 4 cards of one rank, drawn
from the hand, with pairwise-distinct suits in strictly ascending
alphabetical order; and every rank with at least 3 distinct suits present
gets a Set meld. -/
theorem set_meld_suit_order (parsed_hand : List Card) (hnodup : parsed_hand.Nodup) :
    (∀ m ∈ setMeldsIndexed parsed_hand,
      3 ≤ m.length ∧ m.length ≤ 4 ∧
      (∃ r, ∀ p ∈ m, p.2.1 = r) ∧
      (∀ p ∈ m, (p.1, p.2) ∈ parsed_hand.enum) ∧
      m.Pairwise (fun p q => pyStrLe p.2.2 q.2.2 ∧ p.2.2 ≠ q.2.2)) ∧
    (∀ r : ℕ,
      3 ≤ ((rank_group (sorted_hand parsed_hand) r).map Prod.snd).toFinset.card →
      ∃ m ∈ setMeldsIndexed parsed_hand, ∀ p ∈ m, p.2.1 = r) := by
  constructor
  · intro m hm
    obtain ⟨r, hrord, hlen3, hsuits, hmeq, hm3⟩ := setMeldsIndexed_dest parsed_hand m hm
    have hne := rank_group_pairwise_suit_ne parsed_hand hnodup r
    have htake : m = ((rank_group (sorted_hand parsed_hand) r).take 4).map
        (fun q => (q.1, (r, q.2))) := by
      rw [hmeq, takeSetCards_take r _ [] [] (by simp) (by simp) hne]
      simp
    refine ⟨hm3, ?_, ⟨r, ?_⟩, ?_, ?_⟩
    · rw [htake, List.length_map]
      have := List.length_take 4 (rank_group (sorted_hand parsed_hand) r)
      omega
    · intro p hp
      rw [htake] at hp
      obtain ⟨q, _, rfl⟩ := List.mem_map.mp hp
      rfl
    · intro p hp
      rw [htake] at hp
      obtain ⟨q, hq, rfl⟩ := List.mem_map.mp hp
      have hq2 : q ∈ rank_group (sorted_hand parsed_hand) r := List.take_subset 4 _ hq
      obtain ⟨i, s⟩ := q
      rw [mem_rank_group] at hq2
      exact (mem_sorted_hand _ _).mp hq2
    · rw [htake, List.pairwise_map]
      have h1 := (rank_group_pairwise_suit_le parsed_hand r).and hne
      exact (List.Pairwise.sublist (List.take_sublist 4 _) h1).imp (fun h => ⟨h.1, h.2⟩)
  · intro r hsuits
    have hlen : 3 ≤ (rank_group (sorted_hand parsed_hand) r).length := by
      have h1 := List.toFinset_card_le ((rank_group (sorted_hand parsed_hand) r).map Prod.snd)
      rw [List.length_map] at h1
      omega
    have hne := rank_group_pairwise_suit_ne parsed_hand hnodup r
    have htake := takeSetCards_take r (rank_group (sorted_hand parsed_hand) r) [] []
      (by simp) (by simp) hne
    have hm3 : 3 ≤ (takeSetCards r (rank_group (sorted_hand parsed_hand) r) [] []).length := by
      rw [htake]
      simp only [List.nil_append, List.length_map, List.length_take, List.length_nil]
      omega
    have hrord : r ∈ rank_groups_order (sorted_hand parsed_hand) := by
      have hnil : rank_group (sorted_hand parsed_hand) r ≠ [] := by
        intro h
        rw [h] at hlen
        exact absurd hlen (by simp)
      obtain ⟨q, hq⟩ := List.exists_mem_of_ne_nil _ hnil
      obtain ⟨i, s⟩ := q
      rw [mem_rank_group] at hq
      unfold rank_groups_order
      rw [mem_firstOccur]
      exact List.mem_map.mpr ⟨(i, (r, s)), hq, rfl⟩
    refine ⟨takeSetCards r (rank_group (sorted_hand parsed_hand) r) [] [], ?_, ?_⟩
    · unfold setMeldsIndexed
      rw [List.mem_filterMap]
      refine ⟨r, hrord, ?_⟩
      dsimp only
      rw [if_pos hlen, if_pos hsuits, if_pos hm3]
    · intro p hp
      rcases takeSetCards_mem r _ [] [] p hp with h | ⟨s, _, hps⟩
      · exact absurd h (List.not_mem_nil p)
      · rw [hps]

/-- Witness for C8 at the concrete hand of three Aces. -/
theorem set_meld_suit_order_witness :
    ([(1, "hearts"), (1, "clubs"), (1, "diamonds")] : List Card).Nodup ∧
    ((∀ m ∈ setMeldsIndexed [(1, "hearts"), (1, "clubs"), (1, "diamonds")],
      3 ≤ m.length ∧ m.length ≤ 4 ∧
      (∃ r, ∀ p ∈ m, p.2.1 = r) ∧
      (∀ p ∈ m, (p.1, p.2) ∈ ([(1, "hearts"), (1, "clubs"), (1, "diamonds")] :
        List Card).enum) ∧
      m.Pairwise (fun p q => pyStrLe p.2.2 q.2.2 ∧ p.2.2 ≠ q.2.2)) ∧
    (∀ r : ℕ,
      3 ≤ ((rank_group (sorted_hand [(1, "hearts"), (1, "clubs"), (1, "diamonds")]) r).map
        Prod.snd).toFinset.card →
      ∃ m ∈ setMeldsIndexed [(1, "hearts"), (1, "clubs"), (1, "diamonds")],
        ∀ p ∈ m, p.2.1 = r)) :=
  ⟨by decide, set_meld_suit_order [(1, "hearts"), (1, "clubs"), (1, "diamonds")] (by decide)⟩

/-- Counterexample to C8 as frozen: the claim says the suits are walked in
the `SUITS` declaration order hearts, diamonds, clubs, spades, so the set
meld for three Aces of hearts, clubs and diamonds would list hearts first;
the engine actually sorts by suit string and emits clubs, diamonds,
hearts. -/
theorem set_meld_suit_order_counterexample :
    ([(1, "hearts"), (1, "clubs"), (1, "diamonds")] : List Card).Nodup ∧
    ∃ m ∈ setMeldsIndexed [(1, "hearts"), (1, "clubs"), (1, "diamonds")],
      m.map (fun p => p.2.2) = ["clubs", "diamonds", "hearts"] ∧
      m.map (fun p => p.2.2) ≠ ["hearts", "diamonds", "clubs"] := by decide
